import Mathlib

/-!
# Mobile-Storage-Server: the upload pipeline of `server.js`

A shallow embedding of `src/server.js`: the `/upload` handler (scan, type
check, thumbnail, catalog insert, socket broadcast), the `files` table, the
`/search` query and the `joinUser` socket handler, followed by the theorems
that settle the claims made about them.

Conventions.
* JavaScript strings are `String`; the helpers work on their character lists.
* Paths follow Node's `path.posix` module (the server runs on a POSIX host).
* Everything the handler learns from outside (the exit status of `clamscan`,
  what `FileType.fromFile` sniffs, whether `fs.ensureDir`, `sharp` or `ffmpeg`
  throw, the clock) is carried by the uploaded file as data, so the handler
  is a function.
-/

namespace MobileStorage

/-! ## JavaScript string primitives -/

/-- `s.startsWith(t)` on character lists. -/
def startsWithChars : List Char → List Char → Bool
  | _, [] => true
  | [], _ :: _ => false
  | c :: cs, d :: ds => c == d && startsWithChars cs ds

/-- `s.includes(t)` on character lists: `t` occurs at some position of `s`. -/
def includesChars : List Char → List Char → Bool
  | [], t => startsWithChars [] t
  | c :: cs, t => startsWithChars (c :: cs) t || includesChars cs t

/-- `s.split(sep)` on character lists; the result is never empty. -/
def splitChars (sep : Char) : List Char → List (List Char)
  | [] => [[]]
  | c :: cs =>
    if c = sep then [] :: splitChars sep cs
    else
      match splitChars sep cs with
      | [] => [[c]]
      | seg :: rest => (c :: seg) :: rest

/-- `segs.join(sep)` on character lists. -/
def joinChars (sep : Char) : List (List Char) → List Char
  | [] => []
  | [seg] => seg
  | seg :: rest => seg ++ sep :: joinChars sep rest

/-- `s.replace(/\\/g, '/')`: every backslash becomes a forward slash. -/
def replaceBackslashChars (s : List Char) : List Char :=
  s.map fun c => if c = '\\' then '/' else c

/-- `s.includes(t)`. -/
def jsIncludes (s t : String) : Bool := includesChars s.data t.data

/-- `s.split('/')[0]`: the part of `s` before its first slash. -/
def topLevel (s : String) : String :=
  String.mk ((splitChars '/' s.data).headD [])

/-- `s.replace(/\\/g, '/')`. -/
def replaceBackslash (s : String) : String := String.mk (replaceBackslashChars s.data)

/-! ## Node's `path.posix` -/

/-- One step of `normalizeString`: the effect of a path segment on the stack
of kept segments (most recent first).  Empty and `.` segments are skipped; a
`..` pops the last kept segment unless there is none or it is itself `..`, in
which case it is kept when `allowAboveRoot` and dropped otherwise. -/
def normStep (allowAboveRoot : Bool) (stack : List (List Char)) (seg : List Char) :
    List (List Char) :=
  if seg = [] ∨ seg = ['.'] then stack
  else if seg = ['.', '.'] then
    match stack with
    | [] => if allowAboveRoot then [seg] else []
    | top :: below =>
      if top = ['.', '.'] then (if allowAboveRoot then seg :: stack else stack)
      else below
  else seg :: stack

/-- `normalizeString(path, allowAboveRoot, '/', isPosixPathSeparator)`, as the
list of kept segments in path order. -/
def normSegs (allowAboveRoot : Bool) (path : List Char) : List (List Char) :=
  ((splitChars '/' path).foldl (normStep allowAboveRoot) []).reverse

/-- `path.posix.normalize(path)`. -/
def normalizeChars (path : List Char) : List Char :=
  match path with
  | [] => ['.']
  | c :: _ =>
    let isAbsolute := c = '/'
    let trailingSeparator := path.getLast? = some '/'
    let body := joinChars '/' (normSegs (!isAbsolute) path)
    if body = [] then
      if isAbsolute then ['/'] else if trailingSeparator then ['.', '/'] else ['.']
    else
      let body := if trailingSeparator then body ++ ['/'] else body
      if isAbsolute then '/' :: body else body

/-- `path.posix.join(...args)`: the non-empty arguments joined by `/` and
normalized; `.` when there is none. -/
def joinPathChars (args : List (List Char)) : List Char :=
  match args.filter (· ≠ []) with
  | [] => ['.']
  | parts => normalizeChars (joinChars '/' parts)

/-- The number of leading segments two segment lists share. -/
def commonSegs : List (List Char) → List (List Char) → Nat
  | a :: as, b :: bs => if a = b then commonSegs as bs + 1 else 0
  | _, _ => 0

/-- `path.posix.relative(from, to)` for absolute arguments (which is what
every call of `server.js` passes): both are resolved, the shared leading
segments are dropped, each remaining segment of the first becomes `..`, and the
remaining segments of the second follow. -/
def relativeChars (fromPath toPath : List Char) : List Char :=
  let f := normSegs false fromPath
  let t := normSegs false toPath
  let k := commonSegs f t
  joinChars '/' (List.replicate (f.length - k) ['.', '.'] ++ t.drop k)

/-- `path.posix.dirname(path)`. -/
def dirnameChars (path : List Char) : List Char :=
  match path with
  | [] => ['.']
  | c :: rest =>
    -- scan from the end, never looking at index 0
    let r := (rest.reverse.dropWhile (· = '/')).dropWhile (· ≠ '/')
    match r with
    | [] => if c = '/' then ['/'] else ['.']
    | _ :: before =>
      if c = '/' ∧ before = [] then ['/', '/'] else c :: before.reverse

/-- `path.posix.basename(path)`. -/
def basenameChars (path : List Char) : List Char :=
  ((path.reverse.dropWhile (· = '/')).takeWhile (· ≠ '/')).reverse

/-- `path.join(...args)`. -/
def pathJoin (args : List String) : String := String.mk (joinPathChars (args.map String.data))

/-- `path.relative(from, to)`. -/
def pathRelative (fromPath toPath : String) : String :=
  String.mk (relativeChars fromPath.data toPath.data)

/-- `path.dirname(p)`. -/
def pathDirname (p : String) : String := String.mk (dirnameChars p.data)

/-- `path.basename(p)`. -/
def pathBasename (p : String) : String := String.mk (basenameChars p.data)

/-! ## Constants and tables of `server.js` -/

/-- The deployment: `__dirname`, the absolute directory `server.js` runs from. -/
structure Config where
  dirname : String

/-- `UPLOAD_ROOT = path.join(__dirname, 'uploads')`. -/
def UPLOAD_ROOT (cfg : Config) : String := pathJoin [cfg.dirname, "uploads"]

/-- `THUMB_ROOT = path.join(__dirname, 'thumbs')`. -/
def THUMB_ROOT (cfg : Config) : String := pathJoin [cfg.dirname, "thumbs"]

/-- A row of the `files` table (`CREATE TABLE files`): `id INTEGER PRIMARY KEY`
and six unconstrained columns. -/
structure Row where
  id : Nat
  user : String
  relpath : String
  filename : String
  mimetype : String
  size : Nat
  created : Nat
  deriving DecidableEq, Repr

/-- The id SQLite gives the next row of an `INTEGER PRIMARY KEY` table: one
more than the largest id in use, 1 for an empty table. -/
def nextRowid (db : List Row) : Nat := (db.map Row.id).foldr max 0 + 1

/-- An entry of `req.files` as multer's disk storage leaves it once the part
is written, together with what the outside world will answer about it. -/
structure UploadedFile where
  /-- the file name the client sent (`preservePath: true` keeps its directories) -/
  originalname : String
  /-- the MIME type the client declared for the part -/
  mimetype : String
  /-- the number of bytes multer wrote for the part (`bytesWritten`) -/
  size : Nat
  /-- `clamscan --no-summary <path>` exits with status 0 -/
  scanClean : Bool
  /-- the `mime` of `FileType.fromFile(path)`, `none` when it resolves to `undefined` -/
  sniffed : Option String
  /-- the message of the error `fs.ensureDir` raises on the file's thumbnail
  directory, if any (for instance `EEXIST` when a file is in the way) -/
  ensureDirError : Option String
  /-- the message of the error `sharp` or `ffmpeg` raises on the file, if any -/
  codecError : Option String
  /-- the value of `Date.now()` when the row is inserted -/
  now : Nat
  deriving DecidableEq, Repr

/-- The payload of a `fileAdded` event. -/
structure FileAdded where
  relpath : String
  filename : String
  mimetype : String
  size : Nat
  thumb : Option String
  deriving DecidableEq, Repr

/-- What the handler does, in the order it does it. -/
inductive Action where
  | scan (path : String)
  | sniff (path : String)
  | unlink (path : String)
  | thumbnail (path : String)
  | insert (row : Row)
  | emit (room : String) (payload : FileAdded)
  deriving DecidableEq, Repr

/-- An HTTP response of the `/upload` handler. -/
inductive Response where
  /-- `res.json({ success: true })` -/
  | success
  /-- `res.status(status).send(text)` -/
  | send (status : Nat) (text : String)
  deriving DecidableEq, Repr

/-- The server state the `/upload` handler reads and writes: the `files`
table, the paths present under the upload root, and the log of the handler's
actions, each tagged with the index in `req.files` of the file it is for. -/
structure State where
  db : List Row
  disk : List String
  log : List (Nat × Action)
  deriving DecidableEq, Repr

/-! ## Multer storage (`storage`, lines 40-54) -/

/-- The directory `destination` hands to multer: `path.join(UPLOAD_ROOT, username)`. -/
def userDir (cfg : Config) (username : String) : String :=
  pathJoin [UPLOAD_ROOT cfg, username]

/-- `file.path`: multer's disk storage joins the destination with what
`filename` returns, which is `file.originalname`. -/
def filePath (cfg : Config) (username : String) (file : UploadedFile) : String :=
  pathJoin [userDir cfg username, file.originalname]

/-! ## `scanFile` -/

/-- `scanFile(filepath)`: the promise resolves to `true` when
`clamscan --no-summary filepath` exits with status 0 and is rejected with
`Virus detected or scan error` whenever `execFile` reports an error (an
infection, a scan error, or `clamscan` not being runnable). -/
def scanFile (clamscanOk : Bool) : Except String Bool :=
  if clamscanOk then Except.ok true else Except.error "Virus detected or scan error"

/-! ## `makeThumbnail` -/

/-- `s.endsWith(t)` up to the case of ASCII letters. -/
def endsWithNoCase (s t : String) : Bool :=
  startsWithChars (s.data.reverse.map Char.toLower) (t.data.reverse.map Char.toLower)

/-- `fullpath.match(/\.(jpg|jpeg|png|gif)$/i)`. -/
def isImagePath (fullpath : String) : Bool :=
  [".jpg", ".jpeg", ".png", ".gif"].any (endsWithNoCase fullpath)

/-- `fullpath.match(/\.(mp4|mov|avi|mkv)$/i)`. -/
def isVideoPath (fullpath : String) : Bool :=
  [".mp4", ".mov", ".avi", ".mkv"].any (endsWithNoCase fullpath)

/-- `makeThumbnail(user, relpath, fullpath)`: `.error msg` when
`fs.ensureDir(thumbDir)`, `sharp` or `ffmpeg` throws, else the thumbnail's
path relative to `THUMB_ROOT`, `none` for a file that is neither an image nor
a video by the extension of `fullpath`.  The directory is ensured first, for
every file, before the extension is looked at. -/
def makeThumbnail (cfg : Config) (user relpath fullpath : String)
    (ensureDirError codecError : Option String) : Except String (Option String) :=
  let thumbDir := pathJoin [THUMB_ROOT cfg, user, pathDirname relpath]
  match ensureDirError with
  | some msg => Except.error msg
  | none =>
    let baseName := pathBasename relpath
    let thumbPath := pathJoin [thumbDir, baseName ++ ".jpg"]
    if isImagePath fullpath then
      -- `sharp(fullpath).resize(300).jpeg({ quality: 80 }).toFile(thumbPath)`
      match codecError with
      | some msg => Except.error msg
      | none => Except.ok (some (replaceBackslash (pathRelative (THUMB_ROOT cfg) thumbPath)))
    else if isVideoPath fullpath then
      -- `ffmpeg(fullpath).screenshots({ count: 1, ... })`
      match codecError with
      | some msg => Except.error msg
      | none => Except.ok (some (replaceBackslash (pathRelative (THUMB_ROOT cfg) thumbPath)))
    else Except.ok none

/-! ## `POST /upload` -/

/-- The type check of the handler:
`!type || !file.mimetype.includes(type.mime.split('/')[0])`. -/
def typeRejected (file : UploadedFile) : Bool :=
  match file.sniffed with
  | none => true
  | some mime => !jsIncludes file.mimetype (topLevel mime)

/-- The relative path the handler records:
`path.relative(path.join(UPLOAD_ROOT, username), file.path).replace(/\\/g, '/')`. -/
def relpathOf (cfg : Config) (username : String) (file : UploadedFile) : String :=
  replaceBackslash (pathRelative (pathJoin [UPLOAD_ROOT cfg, username]) (filePath cfg username file))

/-- The row the `INSERT` statement adds for a file. -/
def rowOf (cfg : Config) (username : String) (file : UploadedFile) (id : Nat) : Row :=
  { id := id, user := username, relpath := relpathOf cfg username file,
    filename := file.originalname, mimetype := file.mimetype, size := file.size,
    created := file.now }

/-- The payload of the `fileAdded` event for a file:
`thumb: thumbRel ? '/thumbs/' + thumbRel : null`. -/
def eventOf (cfg : Config) (username : String) (file : UploadedFile)
    (thumbRel : Option String) : FileAdded :=
  { relpath := relpathOf cfg username file, filename := file.originalname,
    mimetype := file.mimetype, size := file.size,
    thumb := match thumbRel with
      | some t => if t = "" then none else some ("/thumbs/" ++ t)
      | none => none }

/-- The body of `for (const file of req.files)` inside the `try`, from the
file at index `i` on: scan, type check, thumbnail, insert, emit.  A rejected
promise or a thrown error ends the loop in the `catch` (status 500), a type
mismatch unlinks the file and returns status 400, and the end of the list
answers `{ success: true }`. -/
def uploadLoop (cfg : Config) (username : String) :
    Nat → List UploadedFile → State → Response × State
  | _, [], st => (Response.success, st)
  | i, file :: rest, st =>
    let path := filePath cfg username file
    match scanFile file.scanClean with
    | Except.error msg =>
      -- `scanFile` rejects: straight to the `catch`
      (Response.send 500 ("Upload failed: " ++ msg),
        { st with log := st.log ++ [(i, Action.scan path)] })
    | Except.ok _ =>
      if typeRejected file then
        (Response.send 400 "File type mismatch or disallowed",
          { st with
            disk := st.disk.filter (· ≠ path)
            log := st.log ++ [(i, Action.scan path), (i, Action.sniff path),
              (i, Action.unlink path)] })
      else
        let relpath := relpathOf cfg username file
        match makeThumbnail cfg username relpath path file.ensureDirError file.codecError with
        | Except.error msg =>
          (Response.send 500 ("Upload failed: " ++ msg),
            { st with
              log := st.log ++ [(i, Action.scan path), (i, Action.sniff path),
                (i, Action.thumbnail path)] })
        | Except.ok thumbRel =>
          let row := rowOf cfg username file (nextRowid st.db)
          uploadLoop cfg username (i + 1) rest
            { st with
              db := st.db ++ [row]
              log := st.log ++ [(i, Action.scan path), (i, Action.sniff path),
                (i, Action.thumbnail path), (i, Action.insert row),
                (i, Action.emit username (eventOf cfg username file thumbRel))] }

/-- A request as the callback of `upload(req, res, ...)` sees it: the error
multer reports if any, `req.body.username` (`""` when absent) and `req.files`. -/
structure UploadRequest where
  err : Option String
  username : String
  files : List UploadedFile
  deriving DecidableEq, Repr

/-- `app.post('/upload', ...)`.  The handler starts from the table `db` and the
upload root `disk`; when multer reports no error every file of `req.files` has
been written to its `file.path`, and the log starts empty. -/
def postUpload (cfg : Config) (req : UploadRequest) (db : List Row) (disk : List String) :
    Response × State :=
  match req.err with
  | some msg => (Response.send 400 msg, { db := db, disk := disk, log := [] })
  | none =>
    let stored := disk ++ req.files.map (filePath cfg req.username)
    if req.username = "" then
      (Response.send 400 "Missing username", { db := db, disk := stored, log := [] })
    else
      uploadLoop cfg req.username 0 req.files { db := db, disk := stored, log := [] }

/-! ## `GET /search` -/

/-- SQLite's `LIKE` without `ESCAPE`, pattern first: `%` matches any run of
characters, `_` any one character, and every other character matches itself
up to the case of ASCII letters. -/
def likeChars : List Char → List Char → Bool
  | [], s => s.isEmpty
  | p :: ps, s =>
    if p = '%' then s.tails.any (likeChars ps)
    else
      match s with
      | [] => false
      | c :: cs => (p = '_' || p.toLower = c.toLower) && likeChars ps cs

/-- A string as SQLite's `LIKE` reads it, as a C string: the characters before
the first NUL. -/
def cString (s : List Char) : List Char :=
  s.takeWhile (· ≠ Char.ofNat 0)

/-- SQLite's `SQLITE_MAX_LIKE_PATTERN_LENGTH`, in bytes. -/
def maxLikePatternLength : Nat := 50000

/-- `value LIKE pattern`: an error when the pattern takes more than
`maxLikePatternLength` bytes of UTF-8, else the match of the two C strings. -/
def sqlLike (value pattern : String) : Except String Bool :=
  if pattern.utf8ByteSize > maxLikePatternLength then
    Except.error "LIKE or GLOB pattern too complex"
  else Except.ok (likeChars (cString pattern.data) (cString value.data))

/-- A response of `GET /search`. -/
inductive SearchResponse where
  /-- `res.status(status).send(text)` -/
  | send (status : Nat) (text : String)
  /-- `res.json(rows)` -/
  | rows (rows : List Row)
  /-- the statement throws with `message` and Express answers with status 500 -/
  | failed (message : String)
  deriving DecidableEq, Repr

/-- The `WHERE` clause `/search` builds, on one row: `user = ?`, then
`AND filename LIKE '%q%'` when `q` is non-empty, then
`AND mimetype LIKE 'type%'` when `type` is non-empty.  The terms are tested
from left to right and the row is dropped at the first that fails, so a `LIKE`
is evaluated only on rows that passed the terms before it. -/
def searchWhere (username q type : String) (r : Row) : Except String Bool :=
  if r.user ≠ username then Except.ok false
  else
    match (if q = "" then Except.ok true else sqlLike r.filename ("%" ++ q ++ "%")) with
    | Except.error e => Except.error e
    | Except.ok false => Except.ok false
    | Except.ok true =>
      if type = "" then Except.ok true else sqlLike r.mimetype (type ++ "%")

/-- `db.prepare(sql).all(...params)`: the table is scanned in rowid order and
the rows that pass the `WHERE` clause are returned; an error on a row is the
error of the statement. -/
def selectRows (p : Row → Except String Bool) : List Row → Except String (List Row)
  | [] => Except.ok []
  | r :: rest =>
    match p r with
    | Except.error e => Except.error e
    | Except.ok keep =>
      match selectRows p rest with
      | Except.error e => Except.error e
      | Except.ok out => Except.ok (if keep then r :: out else out)

/-- `app.get('/search', ...)`, the query parameters being strings (`""` when
absent). -/
def getSearch (db : List Row) (username q type : String) : SearchResponse :=
  if username = "" then SearchResponse.send 400 "Missing username"
  else
    match selectRows (searchWhere username q type) db with
    | Except.ok rows => SearchResponse.rows rows
    | Except.error e => SearchResponse.failed e

/-! ## Socket rooms (`io.on('connection', ...)`, `io.to(username).emit`) -/

/-- A connected socket: its id, which socket.io generates, and the set of
rooms it is in. -/
structure Socket where
  id : String
  rooms : List String
  deriving DecidableEq, Repr

/-- The sockets connected to `io`. -/
abbrev Hub := List Socket

/-- `io.on('connection', socket => ...)`: a socket with a fresh id connects;
socket.io puts it in the room named by its own id.  Ids are unique among the
connected sockets, so an id already in use changes nothing. -/
def connect (hub : Hub) (id : String) : Hub :=
  if hub.any (fun s => s.id = id) then hub else hub ++ [{ id := id, rooms := [id] }]

/-- `socket.join(room)`: rooms are sets, joining twice is joining once. -/
def joinRoom (s : Socket) (room : String) : Socket :=
  if room ∈ s.rooms then s else { s with rooms := s.rooms ++ [room] }

/-- `socket.on('joinUser', username => ...)` on the socket `id`:
`socket.join(username)`, then the current rows of that user go back to the
socket as `fileList`. -/
def joinUser (hub : Hub) (db : List Row) (id : String) (username : String) :
    Hub × List Row :=
  (hub.map (fun s => if s.id = id then joinRoom s username else s),
    db.filter (fun r => r.user = username))

/-- A socket that disconnects leaves every room it was in. -/
def disconnect (hub : Hub) (id : String) : Hub :=
  hub.filter (fun s => s.id ≠ id)

/-- The sockets `io.to(room).emit(...)` delivers to: the connected sockets
that are in `room`. -/
def recipients (hub : Hub) (room : String) : List String :=
  (hub.filter (fun s => room ∈ s.rooms)).map Socket.id

/-- The `fileAdded` events of a log, in order, each with its room. -/
def emitted : List (Nat × Action) → List (String × FileAdded)
  | [] => []
  | (_, Action.emit room payload) :: rest => (room, payload) :: emitted rest
  | _ :: rest => emitted rest

/-- The deliveries of a log under `hub`: each emitted event paired with every
connection that receives it. -/
def delivered (hub : Hub) (log : List (Nat × Action)) : List (String × FileAdded) :=
  (emitted log).flatMap fun e => (recipients hub e.1).map fun c => (c, e.2)

/-! ## Derived notions used to state the results -/

/-- What `makeThumbnail` does for a file of a batch of `username`. -/
def thumbOf (cfg : Config) (username : String) (file : UploadedFile) :
    Except String (Option String) :=
  makeThumbnail cfg username (relpathOf cfg username file) (filePath cfg username file)
    file.ensureDirError file.codecError

/-- The thumbnail reference `makeThumbnail` returns, `none` when it throws. -/
def thumbRelOf (cfg : Config) (username : String) (file : UploadedFile) : Option String :=
  match thumbOf cfg username file with
  | Except.ok t => t
  | Except.error _ => none

/-- The file passes all three steps: the scan is clean, the type check does
not reject it and `makeThumbnail` does not throw. -/
def accepted (cfg : Config) (username : String) (file : UploadedFile) : Bool :=
  file.scanClean && !typeRejected file &&
    match thumbOf cfg username file with
    | Except.ok _ => true
    | Except.error _ => false

/-- The log entries of an accepted file at index `i` whose row gets `id`. -/
def acceptedLog (cfg : Config) (username : String) (i id : Nat) (file : UploadedFile) :
    List (Nat × Action) :=
  [(i, Action.scan (filePath cfg username file)),
   (i, Action.sniff (filePath cfg username file)),
   (i, Action.thumbnail (filePath cfg username file)),
   (i, Action.insert (rowOf cfg username file id)),
   (i, Action.emit username (eventOf cfg username file (thumbRelOf cfg username file)))]

/-- The rows of a run of accepted files, the first of which gets `id`. -/
def rowsFrom (cfg : Config) (username : String) : Nat → List UploadedFile → List Row
  | _, [] => []
  | id, file :: rest => rowOf cfg username file id :: rowsFrom cfg username (id + 1) rest

/-- The log of a run of accepted files starting at index `i` and row id `id`. -/
def logFrom (cfg : Config) (username : String) :
    Nat → Nat → List UploadedFile → List (Nat × Action)
  | _, _, [] => []
  | i, id, file :: rest =>
    acceptedLog cfg username i id file ++ logFrom cfg username (i + 1) (id + 1) rest

/-- The state after a run of accepted files starting at index `i`. -/
def afterAccepted (cfg : Config) (username : String) (i : Nat) (files : List UploadedFile)
    (st : State) : State :=
  { st with
    db := st.db ++ rowsFrom cfg username (nextRowid st.db) files
    log := st.log ++ logFrom cfg username i (nextRowid st.db) files }

/-- The inserts and emits of a log, tags kept. -/
def recordEntries (log : List (Nat × Action)) : List (Nat × Action) :=
  log.filter fun e =>
    match e.2 with
    | Action.insert _ => true
    | Action.emit _ _ => true
    | _ => false

/-- The indices of the files a log shows a scan for. -/
def scannedIndices (log : List (Nat × Action)) : List Nat :=
  log.filterMap fun e =>
    match e.2 with
    | Action.scan _ => some e.1
    | _ => none

/-- The entries of a log tagged with the file index `i`. -/
def entriesOf (i : Nat) (log : List (Nat × Action)) : List Action :=
  (log.filter fun e => e.1 = i).map Prod.snd

/-- The inserts and emits of a run of accepted files starting at index `i`
and row id `id`: for each file its insert, then its emit. -/
def recordsFrom (cfg : Config) (username : String) :
    Nat → Nat → List UploadedFile → List (Nat × Action)
  | _, _, [] => []
  | i, id, file :: rest =>
    (i, Action.insert (rowOf cfg username file id))
      :: (i, Action.emit username (eventOf cfg username file (thumbRelOf cfg username file)))
      :: recordsFrom cfg username (i + 1) (id + 1) rest

/-- The segments of a client-sent name that name something: those between
slashes that are neither empty nor `.`. -/
def namedSegs (name : List Char) : List (List Char) :=
  (splitChars '/' name).filter fun seg => decide (¬ (seg = [] ∨ seg = ['.']))

/-- What `normalizeString` keeps of an absolute path: segments that are not
empty, not `.`, not `..` and free of slashes. -/
def KeptSeg (seg : List Char) : Prop :=
  seg ≠ [] ∧ seg ≠ ['.'] ∧ seg ≠ ['.', '.'] ∧ '/' ∉ seg

/-- `s` contains `q` when the case of ASCII letters is ignored. -/
def containsNoCase (s q : String) : Bool :=
  includesChars (s.data.map Char.toLower) (q.data.map Char.toLower)

/-- `s` starts with `t` when the case of ASCII letters is ignored. -/
def startsWithNoCase (s t : String) : Bool :=
  startsWithChars (s.data.map Char.toLower) (t.data.map Char.toLower)

/-- Neither of the `LIKE` wildcards `%` and `_` nor a NUL occurs in `s`. -/
def literalPattern (s : String) : Prop :=
  '%' ∉ s.data ∧ '_' ∉ s.data ∧ Char.ofNat 0 ∉ s.data

/-- The part of `s` before its first NUL, all of `s` when it has none. -/
def upToNul (s : String) : String := String.mk (cString s.data)

/-- The tables `/upload` can produce, starting from the empty table a fresh
deployment creates. -/
inductive Reachable (cfg : Config) : List Row → Prop where
  | empty : Reachable cfg []
  | upload (req : UploadRequest) (db : List Row) (disk : List String) :
      Reachable cfg db → Reachable cfg (postUpload cfg req db disk).2.db

/-- What happens on the socket side: a socket connects, calls `joinUser`, or
disconnects. -/
inductive HubEvent where
  | connect (id : String)
  | joinUser (id : String) (username : String)
  | disconnect (id : String)
  deriving DecidableEq, Repr

/-- The effect of one socket event on the connected sockets. -/
def hubStep (db : List Row) (hub : Hub) : HubEvent → Hub
  | HubEvent.connect id => connect hub id
  | HubEvent.joinUser id username => (joinUser hub db id username).1
  | HubEvent.disconnect id => disconnect hub id

/-- The connected sockets and their rooms after a history of socket events,
starting with nobody connected. -/
def hubAfter (db : List Row) (events : List HubEvent) : Hub :=
  events.foldl (hubStep db) []

/-! ## A deployment and some uploads, for concrete runs -/

/-- A server started from `/srv/app`. -/
def demoCfg : Config := { dirname := "/srv/app" }

/-- A sound JPEG declared as `image/jpeg`. -/
def photo : UploadedFile :=
  { originalname := "photo.jpg", mimetype := "image/jpeg", size := 2048, scanClean := true,
    sniffed := some "image/jpeg", ensureDirError := none, codecError := none, now := 1700000000000 }

/-- An executable declared as `image/jpeg`. -/
def disguised : UploadedFile :=
  { originalname := "setup.jpg", mimetype := "image/jpeg", size := 4096, scanClean := true,
    sniffed := some "application/x-msdownload", ensureDirError := none, codecError := none, now := 1700000000001 }

/-- A sound MP4 declared as `video/mp4`. -/
def clip : UploadedFile :=
  { originalname := "clip.mp4", mimetype := "video/mp4", size := 8192, scanClean := true,
    sniffed := some "video/mp4", ensureDirError := none, codecError := none, now := 1700000000002 }

/-- A file `clamscan` flags. -/
def infected : UploadedFile :=
  { originalname := "eicar.png", mimetype := "image/png", size := 68, scanClean := false,
    sniffed := some "image/png", ensureDirError := none, codecError := none, now := 1700000000003 }

/-- A PNG whose header sniffs as PNG but that `sharp` cannot decode. -/
def truncated : UploadedFile :=
  { originalname := "cut.png", mimetype := "image/png", size := 512, scanClean := true,
    sniffed := some "image/png", ensureDirError := none,
    codecError := some "Input file contains unsupported image format", now := 1700000000004 }

/-- A TrueType font declared the way browsers commonly do. -/
def font : UploadedFile :=
  { originalname := "body.ttf", mimetype := "application/x-font-ttf", size := 1024,
    scanClean := true, sniffed := some "font/ttf", ensureDirError := none, codecError := none, now := 1700000000005 }

/-- A PDF whose client-sent name climbs out of the user's folder. -/
def climbing : UploadedFile :=
  { originalname := "../notes.pdf", mimetype := "application/pdf", size := 300,
    scanClean := true, sniffed := some "application/pdf", ensureDirError := none, codecError := none,
    now := 1700000000006 }

/-- A PDF whose client-sent name starts with a backslash. -/
def backslashed : UploadedFile :=
  { originalname := "\\etc\\notes.pdf", mimetype := "application/pdf", size := 300,
    scanClean := true, sniffed := some "application/pdf", ensureDirError := none, codecError := none,
    now := 1700000000007 }

/-- A PDF declared as `image/png`. -/
def mislabelled : UploadedFile :=
  { originalname := "cv.png", mimetype := "image/png", size := 700, scanClean := true,
    sniffed := some "application/pdf", ensureDirError := none, codecError := none, now := 1700000000008 }

/-- A PNG declared as `image/jpeg`: same category, different subtype. -/
def relabelled : UploadedFile :=
  { originalname := "scan.jpg", mimetype := "image/jpeg", size := 900, scanClean := true,
    sniffed := some "image/png", ensureDirError := none, codecError := none, now := 1700000000009 }

/-- A PDF whose thumbnail directory cannot be created because a file is in
the way. -/
def blocked : UploadedFile :=
  { originalname := "notes.pdf", mimetype := "application/pdf", size := 300,
    scanClean := true, sniffed := some "application/pdf",
    ensureDirError := some "EEXIST: file already exists, mkdir", codecError := none,
    now := 1700000000010 }

/-- The request multer hands over for `files` uploaded as `username`. -/
def batch (username : String) (files : List UploadedFile) : UploadRequest :=
  { err := none, username := username, files := files }

/-! ## The upload loop -/

theorem foldr_max_append_singleton (l : List Nat) (x : Nat) :
    (l ++ [x]).foldr max 0 = max (l.foldr max 0) x := by
  induction l with
  | nil => simp
  | cons a l ih => simp [ih, Nat.max_assoc]

theorem nextRowid_append_singleton (db : List Row) (r : Row) (h : r.id = nextRowid db) :
    nextRowid (db ++ [r]) = nextRowid db + 1 := by
  unfold nextRowid at *
  rw [List.map_append, List.map_singleton, foldr_max_append_singleton, h]
  omega

theorem uploadLoop_cons_accepted (cfg : Config) (username : String) (i : Nat)
    (file : UploadedFile) (rest : List UploadedFile) (st : State)
    (h : accepted cfg username file = true) :
    uploadLoop cfg username i (file :: rest) st
      = uploadLoop cfg username (i + 1) rest (afterAccepted cfg username i [file] st) := by
  unfold accepted at h
  simp only [Bool.and_eq_true, Bool.not_eq_true'] at h
  obtain ⟨⟨hs, ht⟩, hth⟩ := h
  rw [uploadLoop]
  simp only [hs, ht, scanFile, if_true, Bool.false_eq_true, if_false]
  unfold thumbOf at hth
  unfold afterAccepted logFrom rowsFrom logFrom rowsFrom acceptedLog thumbRelOf thumbOf
  split
  · rename_i msg hm
    rw [hm] at hth
    simp at hth
  · rename_i t hm
    simp [hm]

theorem uploadLoop_cons_rejected (cfg : Config) (username : String) (i : Nat)
    (file : UploadedFile) (rest : List UploadedFile) (st : State)
    (h : accepted cfg username file = false) :
    uploadLoop cfg username i (file :: rest) st = uploadLoop cfg username i [file] st := by
  unfold accepted thumbOf at h
  rw [uploadLoop, uploadLoop]
  by_cases hs : file.scanClean = true
  · by_cases ht : typeRejected file = true
    · simp [hs, ht, scanFile]
    · simp only [Bool.not_eq_true] at ht
      simp only [hs, ht, scanFile, if_true, Bool.false_eq_true, if_false]
      split
      · simp [*]
      · rename_i t hm
        rw [hm] at h
        simp [hs, ht] at h
  · simp only [Bool.not_eq_true] at hs
    simp [hs, scanFile]

theorem afterAccepted_nil (cfg : Config) (username : String) (i : Nat) (st : State) :
    afterAccepted cfg username i [] st = st := by
  simp [afterAccepted, rowsFrom, logFrom]

theorem afterAccepted_cons (cfg : Config) (username : String) (i : Nat)
    (file : UploadedFile) (rest : List UploadedFile) (st : State) :
    afterAccepted cfg username i (file :: rest) st
      = afterAccepted cfg username (i + 1) rest (afterAccepted cfg username i [file] st) := by
  have hid : nextRowid (st.db ++ [rowOf cfg username file (nextRowid st.db)])
      = nextRowid st.db + 1 := nextRowid_append_singleton _ _ rfl
  simp [afterAccepted, rowsFrom, logFrom, hid]

theorem uploadLoop_append_accepted (cfg : Config) (username : String)
    (pre rest : List UploadedFile) :
    ∀ (i : Nat) (st : State), (∀ f ∈ pre, accepted cfg username f = true) →
      uploadLoop cfg username i (pre ++ rest) st
        = uploadLoop cfg username (i + pre.length) rest (afterAccepted cfg username i pre st) := by
  induction pre with
  | nil => intro i st _; simp [afterAccepted_nil]
  | cons f pre ih =>
    intro i st h
    have hf : accepted cfg username f = true := h f (List.mem_cons_self _ _)
    have hpre : ∀ g ∈ pre, accepted cfg username g = true :=
      fun g hg => h g (List.mem_cons_of_mem _ hg)
    rw [List.cons_append, uploadLoop_cons_accepted cfg username i f (pre ++ rest) st hf,
      ih (i + 1) _ hpre, afterAccepted_cons cfg username i f pre st]
    congr 1
    simp only [List.length_cons]
    omega

theorem uploadLoop_all_accepted (cfg : Config) (username : String) (files : List UploadedFile)
    (i : Nat) (st : State) (h : ∀ f ∈ files, accepted cfg username f = true) :
    uploadLoop cfg username i files st
      = (Response.success, afterAccepted cfg username i files st) := by
  have := uploadLoop_append_accepted cfg username files [] i st h
  rw [List.append_nil] at this
  rw [this, uploadLoop]

theorem uploadLoop_first_rejected (cfg : Config) (username : String)
    (pre : List UploadedFile) (bad : UploadedFile) (post : List UploadedFile)
    (i : Nat) (st : State) (hpre : ∀ f ∈ pre, accepted cfg username f = true)
    (hbad : accepted cfg username bad = false) :
    uploadLoop cfg username i (pre ++ bad :: post) st
      = uploadLoop cfg username (i + pre.length) [bad] (afterAccepted cfg username i pre st) := by
  rw [uploadLoop_append_accepted cfg username pre (bad :: post) i st hpre,
    uploadLoop_cons_rejected cfg username _ bad post _ hbad]

theorem uploadLoop_single_scanFailed (cfg : Config) (username : String) (i : Nat)
    (file : UploadedFile) (st : State) (hs : file.scanClean = false) :
    uploadLoop cfg username i [file] st
      = (Response.send 500 ("Upload failed: " ++ "Virus detected or scan error"),
          { st with log := st.log ++ [(i, Action.scan (filePath cfg username file))] }) := by
  rw [uploadLoop]
  simp [hs, scanFile]

theorem uploadLoop_single_typeRejected (cfg : Config) (username : String) (i : Nat)
    (file : UploadedFile) (st : State) (hs : file.scanClean = true)
    (ht : typeRejected file = true) :
    uploadLoop cfg username i [file] st
      = (Response.send 400 "File type mismatch or disallowed",
          { st with
            disk := st.disk.filter (· ≠ filePath cfg username file)
            log := st.log ++ [(i, Action.scan (filePath cfg username file)),
              (i, Action.sniff (filePath cfg username file)),
              (i, Action.unlink (filePath cfg username file))] }) := by
  rw [uploadLoop]
  simp [hs, ht, scanFile]

theorem uploadLoop_single_thumbFailed (cfg : Config) (username : String) (i : Nat)
    (file : UploadedFile) (st : State) (msg : String) (hs : file.scanClean = true)
    (ht : typeRejected file = false) (hth : thumbOf cfg username file = Except.error msg) :
    uploadLoop cfg username i [file] st
      = (Response.send 500 ("Upload failed: " ++ msg),
          { st with
            log := st.log ++ [(i, Action.scan (filePath cfg username file)),
              (i, Action.sniff (filePath cfg username file)),
              (i, Action.thumbnail (filePath cfg username file))] }) := by
  unfold thumbOf at hth
  rw [uploadLoop]
  simp [hs, ht, hth, scanFile]

/-- The three ways a file fails, as the loop sees them. -/
theorem rejected_cases (cfg : Config) (username : String) (file : UploadedFile)
    (h : accepted cfg username file = false) :
    file.scanClean = false
      ∨ (file.scanClean = true ∧ typeRejected file = true)
      ∨ (file.scanClean = true ∧ typeRejected file = false
          ∧ ∃ msg, thumbOf cfg username file = Except.error msg) := by
  unfold accepted at h
  cases hs : file.scanClean
  · exact Or.inl rfl
  · cases ht : typeRejected file
    · right; right
      cases hth : thumbOf cfg username file with
      | error msg => exact ⟨rfl, rfl, msg, rfl⟩
      | ok t => simp [hs, ht, hth] at h
    · exact Or.inr (Or.inl ⟨rfl, rfl⟩)

theorem takeWhile_append_dropWhile_accepted (cfg : Config) (username : String)
    (files : List UploadedFile) :
    (∀ f ∈ files.takeWhile (accepted cfg username), accepted cfg username f = true)
      ∧ (files.dropWhile (accepted cfg username) = []
          ∨ ∃ bad post, files.dropWhile (accepted cfg username) = bad :: post
              ∧ accepted cfg username bad = false) := by
  refine ⟨fun f hf => List.mem_takeWhile_imp hf, ?_⟩
  cases hd : files.dropWhile (accepted cfg username) with
  | nil => exact Or.inl rfl
  | cons bad post =>
    refine Or.inr ⟨bad, post, rfl, ?_⟩
    have := List.head_dropWhile_not (accepted cfg username) files (by simp [hd])
    simpa [hd] using this

theorem recordEntries_append (l₁ l₂ : List (Nat × Action)) :
    recordEntries (l₁ ++ l₂) = recordEntries l₁ ++ recordEntries l₂ := by
  simp [recordEntries]

theorem scannedIndices_append (l₁ l₂ : List (Nat × Action)) :
    scannedIndices (l₁ ++ l₂) = scannedIndices l₁ ++ scannedIndices l₂ := by
  simp [scannedIndices]

theorem recordEntries_logFrom (cfg : Config) (username : String) (files : List UploadedFile) :
    ∀ i id, recordEntries (logFrom cfg username i id files)
      = recordsFrom cfg username i id files := by
  induction files with
  | nil => intro i id; rfl
  | cons f fs ih =>
    intro i id
    rw [logFrom, recordEntries_append, ih, recordsFrom]
    rfl

theorem scannedIndices_logFrom (cfg : Config) (username : String) (files : List UploadedFile) :
    ∀ i id, scannedIndices (logFrom cfg username i id files) = List.range' i files.length := by
  induction files with
  | nil => intro i id; rfl
  | cons f fs ih =>
    intro i id
    rw [logFrom, scannedIndices_append, ih, List.length_cons, List.range'_succ]
    rfl

/-- What a rejected file at index `i` leaves behind: the table untouched, no
insert and no emit, one more scan, an error response with status 400 or 500,
and on disk everything but (at most) its own path. -/
theorem uploadLoop_single_rejected (cfg : Config) (username : String) (i : Nat)
    (bad : UploadedFile) (st : State) (h : accepted cfg username bad = false) :
    (uploadLoop cfg username i [bad] st).2.db = st.db
      ∧ recordEntries (uploadLoop cfg username i [bad] st).2.log = recordEntries st.log
      ∧ scannedIndices (uploadLoop cfg username i [bad] st).2.log = scannedIndices st.log ++ [i]
      ∧ (∃ text, (uploadLoop cfg username i [bad] st).1 = Response.send 400 text
            ∨ (uploadLoop cfg username i [bad] st).1 = Response.send 500 text)
      ∧ (∀ p ∈ st.disk, p ≠ filePath cfg username bad →
            p ∈ (uploadLoop cfg username i [bad] st).2.disk) := by
  rcases rejected_cases cfg username bad h with hs | ⟨hs, ht⟩ | ⟨hs, ht, msg, hth⟩
  · rw [uploadLoop_single_scanFailed cfg username i bad st hs]
    refine ⟨rfl, ?_, ?_, ⟨_, Or.inr rfl⟩, fun p hp _ => hp⟩
    · simp [recordEntries]
    · simp [scannedIndices]
  · rw [uploadLoop_single_typeRejected cfg username i bad st hs ht]
    refine ⟨rfl, ?_, ?_, ⟨_, Or.inl rfl⟩, ?_⟩
    · simp [recordEntries]
    · simp [scannedIndices]
    · intro p hp hne
      simp [hp, hne]
  · rw [uploadLoop_single_thumbFailed cfg username i bad st msg hs ht hth]
    refine ⟨rfl, ?_, ?_, ⟨_, Or.inr rfl⟩, fun p hp _ => hp⟩
    · simp [recordEntries]
    · simp [scannedIndices]

theorem postUpload_eq_loop (cfg : Config) (req : UploadRequest) (db : List Row)
    (disk : List String) (herr : req.err = none) (huser : req.username ≠ "") :
    postUpload cfg req db disk
      = uploadLoop cfg req.username 0 req.files
          { db := db, disk := disk ++ req.files.map (filePath cfg req.username), log := [] } := by
  unfold postUpload
  simp [herr, huser]

/-- The loop in one statement: what it leaves in the table, the log and on disk
is determined by the longest accepted prefix of the files it is given. -/
theorem uploadLoop_takeWhile (cfg : Config) (username : String) (files : List UploadedFile)
    (i : Nat) (st : State) :
    (uploadLoop cfg username i files st).2.db
        = st.db ++ rowsFrom cfg username (nextRowid st.db) (files.takeWhile (accepted cfg username))
      ∧ recordEntries (uploadLoop cfg username i files st).2.log
          = recordEntries st.log
              ++ recordsFrom cfg username i (nextRowid st.db)
                  (files.takeWhile (accepted cfg username))
      ∧ ((uploadLoop cfg username i files st).1 = Response.success
          ↔ files.takeWhile (accepted cfg username) = files)
      ∧ ((uploadLoop cfg username i files st).1 = Response.success
          ∨ ∃ text, (uploadLoop cfg username i files st).1 = Response.send 400 text
              ∨ (uploadLoop cfg username i files st).1 = Response.send 500 text)
      ∧ scannedIndices (uploadLoop cfg username i files st).2.log
          = scannedIndices st.log
              ++ List.range' i (min ((files.takeWhile (accepted cfg username)).length + 1)
                  files.length)
      ∧ (files.takeWhile (accepted cfg username) = files →
          (uploadLoop cfg username i files st).2.disk = st.disk)
      ∧ ∀ bad post, files = files.takeWhile (accepted cfg username) ++ bad :: post →
          ∀ p ∈ st.disk, p ≠ filePath cfg username bad →
            p ∈ (uploadLoop cfg username i files st).2.disk := by
  obtain ⟨hpre, hdrop⟩ := takeWhile_append_dropWhile_accepted cfg username files
  have hsplit := List.takeWhile_append_dropWhile (accepted cfg username) files
  generalize hP : files.takeWhile (accepted cfg username) = pre at *
  generalize hD : files.dropWhile (accepted cfg username) = rest at *
  subst hsplit
  rcases hdrop with hnil | ⟨bad, post, hcons, hbad⟩
  · subst hnil
    rw [List.append_nil, uploadLoop_all_accepted cfg username pre i _ hpre]
    refine ⟨by simp [afterAccepted], ?_, by simp, Or.inl rfl, ?_, ?_, ?_⟩
    · simp [afterAccepted, recordEntries_append, recordEntries_logFrom]
    · simp [afterAccepted, scannedIndices_append, scannedIndices_logFrom]
    · intro _; simp [afterAccepted]
    · intro bad post h
      have := congrArg List.length h
      simp at this
  · subst hcons
    rw [uploadLoop_first_rejected cfg username pre bad post i _ hpre hbad]
    obtain ⟨h1, h2, h3, h4, h5⟩ := uploadLoop_single_rejected cfg username (i + pre.length)
      bad (afterAccepted cfg username i pre st) hbad
    have hne : pre ≠ pre ++ bad :: post := by
      intro h
      have := congrArg List.length h
      simp at this
    refine ⟨?_, ?_, ?_, Or.inr h4, ?_, fun h => absurd h hne, ?_⟩
    · rw [h1]; simp [afterAccepted]
    · rw [h2]; simp [afterAccepted, recordEntries_append, recordEntries_logFrom]
    · constructor
      · intro h
        obtain ⟨text, ht | ht⟩ := h4 <;> rw [ht] at h <;> cases h
      · intro h
        exact absurd h hne
    · rw [h3]
      simp only [afterAccepted, scannedIndices_append, scannedIndices_logFrom,
        List.length_append, List.length_cons]
      rw [show min (pre.length + 1) (pre.length + (post.length + 1)) = pre.length + 1 by omega,
        List.range'_concat, List.append_assoc]
      simp
    · intro bad' post' h p hp hpath
      have hb : bad = bad' ∧ post = post' := by
        have := List.append_cancel_left h
        simpa using this
      obtain ⟨rfl, rfl⟩ := hb
      exact h5 p (by simpa [afterAccepted] using hp) hpath

theorem entriesOf_append (k : Nat) (l₁ l₂ : List (Nat × Action)) :
    entriesOf k (l₁ ++ l₂) = entriesOf k l₁ ++ entriesOf k l₂ := by
  simp [entriesOf]

theorem entriesOf_logFrom_of_lt (cfg : Config) (username : String) (k : Nat)
    (files : List UploadedFile) :
    ∀ i id, k < i → entriesOf k (logFrom cfg username i id files) = [] := by
  induction files with
  | nil => intro i id _; rfl
  | cons f fs ih =>
    intro i id hk
    rw [logFrom, entriesOf_append, ih (i + 1) (id + 1) (by omega)]
    have : i ≠ k := by omega
    simp [entriesOf, acceptedLog, this]

theorem entriesOf_logFrom_of_ge (cfg : Config) (username : String) (k : Nat)
    (files : List UploadedFile) :
    ∀ i id, i + files.length ≤ k → entriesOf k (logFrom cfg username i id files) = [] := by
  induction files with
  | nil => intro i id _; rfl
  | cons f fs ih =>
    intro i id hk
    rw [List.length_cons] at hk
    rw [logFrom, entriesOf_append, ih (i + 1) (id + 1) (by omega)]
    have : i ≠ k := by omega
    simp [entriesOf, acceptedLog, this]

/-- Entries tagged with an index below the one the loop starts from are not
added by the loop. -/
theorem entriesOf_uploadLoop_of_lt (cfg : Config) (username : String) (k : Nat)
    (files : List UploadedFile) :
    ∀ (i : Nat) (st : State), k < i →
      entriesOf k (uploadLoop cfg username i files st).2.log = entriesOf k st.log := by
  induction files with
  | nil => intro i st _; rw [uploadLoop]
  | cons f fs ih =>
    intro i st hk
    have hne : i ≠ k := by omega
    cases hacc : accepted cfg username f with
    | true =>
      rw [uploadLoop_cons_accepted cfg username i f fs st hacc, ih (i + 1) _ (by omega)]
      simp [afterAccepted, logFrom, entriesOf, acceptedLog, hne]
    | false =>
      rw [uploadLoop_cons_rejected cfg username i f fs st hacc]
      rcases rejected_cases cfg username f hacc with hs | ⟨hs, ht⟩ | ⟨hs, ht, msg, hth⟩
      · rw [uploadLoop_single_scanFailed cfg username i f st hs]
        simp [entriesOf, hne]
      · rw [uploadLoop_single_typeRejected cfg username i f st hs ht]
        simp [entriesOf, hne]
      · rw [uploadLoop_single_thumbFailed cfg username i f st msg hs ht hth]
        simp [entriesOf, hne]

theorem emitted_append (l₁ l₂ : List (Nat × Action)) :
    emitted (l₁ ++ l₂) = emitted l₁ ++ emitted l₂ := by
  induction l₁ with
  | nil => rfl
  | cons e l ih =>
    obtain ⟨i, a⟩ := e
    cases a <;> simp [emitted, ih]

/-- The events a run of accepted files emits: one per file, to the room
`username`. -/
theorem emitted_logFrom (cfg : Config) (username : String) (files : List UploadedFile) :
    ∀ i id, emitted (logFrom cfg username i id files)
      = files.map fun f => (username, eventOf cfg username f (thumbRelOf cfg username f)) := by
  induction files with
  | nil => intro i id; rfl
  | cons f fs ih =>
    intro i id
    rw [logFrom, emitted_append, ih]
    rfl

/-- The state in which the loop reaches the file after an accepted run `pre`,
for a request that starts from the table `db`. -/
theorem postUpload_reaches (cfg : Config) (req : UploadRequest) (db : List Row)
    (disk : List String) (pre rest : List UploadedFile) (herr : req.err = none)
    (huser : req.username ≠ "") (hfiles : req.files = pre ++ rest)
    (hpre : ∀ f ∈ pre, accepted cfg req.username f = true) :
    postUpload cfg req db disk
      = uploadLoop cfg req.username pre.length rest
          { db := db ++ rowsFrom cfg req.username (nextRowid db) pre
            disk := disk ++ req.files.map (filePath cfg req.username)
            log := logFrom cfg req.username 0 (nextRowid db) pre } := by
  rw [postUpload_eq_loop cfg req db disk herr huser]
  have h := uploadLoop_append_accepted cfg req.username pre rest 0
    { db := db, disk := disk ++ req.files.map (filePath cfg req.username), log := [] } hpre
  rw [← hfiles] at h
  rw [h]
  simp [afterAccepted]

theorem startsWithChars_self_cons (c : Char) (cs seg : List Char) :
    startsWithChars (c :: cs) (c :: seg) = startsWithChars cs seg := by
  simp [startsWithChars]

/-- The part before the first separator is a prefix of the string. -/
theorem startsWithChars_splitChars_head (sep : Char) (s : List Char) :
    startsWithChars s ((splitChars sep s).headD []) = true := by
  induction s with
  | nil => simp [splitChars, startsWithChars]
  | cons c cs ih =>
    unfold splitChars
    by_cases hc : c = sep
    · simp [hc, startsWithChars]
    · simp only [hc, if_false]
      cases hsp : splitChars sep cs with
      | nil => simp [startsWithChars]
      | cons seg rest =>
        rw [hsp] at ih
        simpa [startsWithChars_self_cons] using ih

theorem includesChars_of_startsWithChars (s t : List Char) (h : startsWithChars s t = true) :
    includesChars s t = true := by
  cases s with
  | nil => simpa [includesChars] using h
  | cons c cs => simp [includesChars, h]

/-- A file whose sniffed top-level category equals the top-level category of
its declared MIME type passes the handler's type check. -/
theorem typeRejected_false_of_same_category (file : UploadedFile) (mime : String)
    (hsn : file.sniffed = some mime) (hcat : topLevel mime = topLevel file.mimetype) :
    typeRejected file = false := by
  unfold typeRejected
  rw [hsn]
  simp only [Bool.not_eq_false']
  rw [hcat]
  unfold jsIncludes topLevel
  exact includesChars_of_startsWithChars _ _ (startsWithChars_splitChars_head '/' _)

theorem accepted_of_steps (cfg : Config) (username : String) (file : UploadedFile)
    (t : Option String) (hs : file.scanClean = true) (ht : typeRejected file = false)
    (hth : thumbOf cfg username file = Except.ok t) : accepted cfg username file = true := by
  simp [accepted, hs, ht, hth]

theorem nextRowid_append_rowsFrom (cfg : Config) (username : String)
    (files : List UploadedFile) :
    ∀ db : List Row, nextRowid (db ++ rowsFrom cfg username (nextRowid db) files)
      = nextRowid db + files.length := by
  induction files with
  | nil => intro db; simp [rowsFrom]
  | cons f fs ih =>
    intro db
    have hid : nextRowid (db ++ [rowOf cfg username f (nextRowid db)]) = nextRowid db + 1 :=
      nextRowid_append_singleton _ _ rfl
    have := ih (db ++ [rowOf cfg username f (nextRowid db)])
    rw [hid, List.append_assoc] at this
    rw [rowsFrom, List.length_cons]
    simp only [List.singleton_append] at this
    rw [this]
    omega

theorem emitted_recordEntries (l : List (Nat × Action)) :
    emitted (recordEntries l) = emitted l := by
  induction l with
  | nil => rfl
  | cons e l ih =>
    obtain ⟨i, a⟩ := e
    cases a <;> simp_all [emitted, recordEntries]

theorem emitted_recordsFrom (cfg : Config) (username : String) (files : List UploadedFile) :
    ∀ i id, emitted (recordsFrom cfg username i id files)
      = files.map fun f => (username, eventOf cfg username f (thumbRelOf cfg username f)) := by
  induction files with
  | nil => intro i id; rfl
  | cons f fs ih =>
    intro i id
    simp [recordsFrom, emitted, ih]

/-- Whatever the request, the handler only appends rows: those of the
accepted run at the head of the batch, or none. -/
theorem postUpload_db (cfg : Config) (req : UploadRequest) (db : List Row)
    (disk : List String) :
    ∃ files, (postUpload cfg req db disk).2.db
      = db ++ rowsFrom cfg req.username (nextRowid db) files := by
  cases herr : req.err with
  | some msg => exact ⟨[], by simp [postUpload, herr, rowsFrom]⟩
  | none =>
    by_cases huser : req.username = ""
    · exact ⟨[], by simp [postUpload, herr, huser, rowsFrom]⟩
    · refine ⟨req.files.takeWhile (accepted cfg req.username), ?_⟩
      rw [postUpload_eq_loop cfg req db disk herr huser]
      exact (uploadLoop_takeWhile cfg req.username req.files 0 _).1

theorem id_lt_nextRowid (db : List Row) (r : Row) (h : r ∈ db) : r.id < nextRowid db := by
  unfold nextRowid
  induction db with
  | nil => cases h
  | cons a db ih =>
    simp only [List.map_cons, List.foldr_cons]
    rcases List.mem_cons.mp h with rfl | h
    · omega
    · have := ih h
      omega

theorem map_id_rowsFrom (cfg : Config) (username : String) (files : List UploadedFile) :
    ∀ id, (rowsFrom cfg username id files).map Row.id = List.range' id files.length := by
  induction files with
  | nil => intro id; rfl
  | cons f fs ih =>
    intro id
    simp [rowsFrom, ih, rowOf, List.range'_succ]

/-- Appending the rows of an accepted run keeps the ids strictly increasing. -/
theorem ids_increasing_append_rowsFrom (cfg : Config) (username : String)
    (db : List Row) (files : List UploadedFile)
    (h : (db.map Row.id).Pairwise (· < ·)) :
    ((db ++ rowsFrom cfg username (nextRowid db) files).map Row.id).Pairwise (· < ·) := by
  rw [List.map_append, List.pairwise_append, map_id_rowsFrom]
  refine ⟨h, List.pairwise_lt_range' _ _, ?_⟩
  intro a ha b hb
  obtain ⟨r, hr, rfl⟩ := List.mem_map.mp ha
  have := id_lt_nextRowid db r hr
  have := (List.mem_range'_1.mp hb).1
  omega

theorem reachable_ids_increasing (cfg : Config) (db : List Row) (h : Reachable cfg db) :
    (db.map Row.id).Pairwise (· < ·) := by
  induction h with
  | empty => simp
  | upload req db disk _ ih =>
    obtain ⟨files, hfiles⟩ := postUpload_db cfg req db disk
    rw [hfiles]
    exact ids_increasing_append_rowsFrom cfg req.username db files ih

/-- Every event the handler emits goes to the room named by the request's
username. -/
theorem emitted_postUpload_room (cfg : Config) (req : UploadRequest) (db : List Row)
    (disk : List String) :
    ∀ e ∈ emitted (postUpload cfg req db disk).2.log, e.1 = req.username := by
  cases herr : req.err with
  | some msg => simp [postUpload, herr, emitted]
  | none =>
    by_cases huser : req.username = ""
    · simp [postUpload, herr, huser, emitted]
    · rw [postUpload_eq_loop cfg req db disk herr huser, ← emitted_recordEntries,
        (uploadLoop_takeWhile cfg req.username req.files 0 _).2.1, emitted_append,
        emitted_recordEntries, emitted_recordsFrom]
      intro e he
      simp only [emitted, List.nil_append, List.mem_map] at he
      obtain ⟨f, _, rfl⟩ := he
      rfl

theorem mem_recipients (hub : Hub) (room : String) (id : String) :
    id ∈ recipients hub room ↔ ∃ s ∈ hub, s.id = id ∧ room ∈ s.rooms := by
  unfold recipients
  simp only [List.mem_map, List.mem_filter, decide_eq_true_eq]
  constructor
  · rintro ⟨s, ⟨hs, hr⟩, rfl⟩
    exact ⟨s, hs, rfl, hr⟩
  · rintro ⟨s, hs, rfl, hr⟩
    exact ⟨s, ⟨hs, hr⟩, rfl⟩

theorem mem_delivered (hub : Hub) (log : List (Nat × Action)) (id : String)
    (payload : FileAdded) :
    (id, payload) ∈ delivered hub log
      ↔ ∃ room, (room, payload) ∈ emitted log ∧ id ∈ recipients hub room := by
  unfold delivered
  simp only [List.mem_flatMap, List.mem_map, Prod.mk.injEq]
  constructor
  · rintro ⟨⟨room, p⟩, he, c, hc, rfl, rfl⟩
    exact ⟨room, he, hc⟩
  · rintro ⟨room, he, hc⟩
    exact ⟨(room, payload), he, id, hc, rfl, rfl⟩

theorem mem_rooms_joinRoom (s : Socket) (room r : String) :
    r ∈ (joinRoom s room).rooms ↔ r ∈ s.rooms ∨ r = room := by
  unfold joinRoom
  by_cases h : room ∈ s.rooms
  · rw [if_pos h]
    constructor
    · exact Or.inl
    · rintro (h' | rfl)
      · exact h'
      · exact h
  · rw [if_neg h]
    simp

theorem joinRoom_id (s : Socket) (room : String) : (joinRoom s room).id = s.id := by
  unfold joinRoom
  split <;> rfl

/-- A socket all of whose `joinUser` calls name `B` is only ever in the room
of its own id and in the room `B`. -/
theorem rooms_of_joins (db : List Row) (conn B : String) (events : List HubEvent)
    (hconn : ∀ room, HubEvent.joinUser conn room ∈ events → room = B) :
    ∀ hub : Hub, (∀ s ∈ hub, s.id = conn → ∀ r ∈ s.rooms, r = conn ∨ r = B) →
      ∀ s ∈ events.foldl (hubStep db) hub, s.id = conn → ∀ r ∈ s.rooms, r = conn ∨ r = B := by
  induction events with
  | nil => intro hub h; simpa using h
  | cons ev evs ih =>
    intro hub h
    rw [List.foldl_cons]
    apply ih (fun room hm => hconn room (List.mem_cons_of_mem _ hm))
    intro s hs hid r hr
    cases ev with
    | connect id =>
      simp only [hubStep, connect] at hs
      split at hs
      · exact h s hs hid r hr
      · rcases List.mem_append.mp hs with hs | hs
        · exact h s hs hid r hr
        · simp only [List.mem_singleton] at hs
          subst hs
          simp only [List.mem_singleton] at hr
          exact Or.inl (hr.trans hid)
    | joinUser id username =>
      simp only [hubStep, joinUser, List.mem_map] at hs
      obtain ⟨s0, hs0, rfl⟩ := hs
      by_cases hc : s0.id = id
      · rw [if_pos hc] at hid hr
        rw [joinRoom_id] at hid
        rcases (mem_rooms_joinRoom s0 username r).mp hr with hr | rfl
        · exact h s0 hs0 hid r hr
        · have : id = conn := hc.symm.trans hid
          subst this
          exact Or.inr (hconn r (by simp))
      · rw [if_neg hc] at hid hr
        exact h s0 hs0 hid r hr
    | disconnect id =>
      simp only [hubStep, disconnect, List.mem_filter] at hs
      exact h s hs.1 hid r hr

/-- A socket that is in a room stays in it until it disconnects. -/
theorem stays_in_room (db : List Row) (other room : String) (events : List HubEvent)
    (hstay : HubEvent.disconnect other ∉ events) :
    ∀ hub : Hub, (∃ s ∈ hub, s.id = other ∧ room ∈ s.rooms) →
      ∃ s ∈ events.foldl (hubStep db) hub, s.id = other ∧ room ∈ s.rooms := by
  induction events with
  | nil => intro hub h; simpa using h
  | cons ev evs ih =>
    intro hub h
    rw [List.foldl_cons]
    apply ih (fun hm => hstay (List.mem_cons_of_mem _ hm))
    obtain ⟨s, hs, hid, hr⟩ := h
    cases ev with
    | connect id =>
      refine ⟨s, ?_, hid, hr⟩
      simp only [hubStep, connect]
      split
      · exact hs
      · exact List.mem_append_left _ hs
    | joinUser id username =>
      refine ⟨if s.id = id then joinRoom s username else s, ?_, ?_, ?_⟩
      · simp only [hubStep, joinUser, List.mem_map]
        exact ⟨s, hs, rfl⟩
      · split
        · rw [joinRoom_id]; exact hid
        · exact hid
      · split
        · exact (mem_rooms_joinRoom s username room).mpr (Or.inl hr)
        · exact hr
    | disconnect id =>
      refine ⟨s, ?_, hid, hr⟩
      simp only [hubStep, disconnect, List.mem_filter, decide_eq_true_eq]
      refine ⟨hs, ?_⟩
      intro e
      apply hstay
      rw [← e, hid]
      simp

/-- Calling `joinUser` puts a connected socket in the room it names. -/
theorem joinUser_joins (hub : Hub) (db : List Row) (other room : String)
    (h : other ∈ hub.map Socket.id) :
    ∃ s ∈ (joinUser hub db other room).1, s.id = other ∧ room ∈ s.rooms := by
  obtain ⟨s, hs, hid⟩ := List.mem_map.mp h
  refine ⟨joinRoom s room, ?_, ?_, ?_⟩
  · simp only [joinUser, List.mem_map]
    exact ⟨s, hs, by rw [if_pos hid]⟩
  · rw [joinRoom_id]; exact hid
  · exact (mem_rooms_joinRoom s room room).mpr (Or.inr rfl)

/-- No two connected sockets share an id. -/
theorem hub_ids_nodup (db : List Row) (events : List HubEvent) :
    ∀ hub : Hub, (hub.map Socket.id).Nodup →
      ((events.foldl (hubStep db) hub).map Socket.id).Nodup := by
  induction events with
  | nil => intro hub h; simpa using h
  | cons ev evs ih =>
    intro hub h
    rw [List.foldl_cons]
    apply ih
    cases ev with
    | connect id =>
      simp only [hubStep, connect]
      split
      · exact h
      · rename_i hnew
        rw [List.map_append, List.map_singleton]
        refine List.Nodup.append h (List.nodup_singleton _) ?_
        intro x hx hx'
        simp only [List.mem_singleton] at hx'
        subst hx'
        apply hnew
        obtain ⟨s, hs, hid⟩ := List.mem_map.mp hx
        exact List.any_eq_true.mpr ⟨s, hs, by simp [hid]⟩
    | joinUser id username =>
      have hmap : ((joinUser hub db id username).1).map Socket.id = hub.map Socket.id := by
        simp only [joinUser, List.map_map]
        apply List.map_congr_left
        intro s _
        simp only [Function.comp]
        split
        · exact joinRoom_id s username
        · rfl
      simp only [hubStep]
      rw [hmap]
      exact h
    | disconnect id =>
      simp only [hubStep, disconnect]
      exact h.sublist ((List.filter_sublist _).map Socket.id)

theorem recipients_nodup (db : List Row) (events : List HubEvent) (room : String) :
    (recipients (hubAfter db events) room).Nodup := by
  unfold recipients hubAfter
  exact (hub_ids_nodup db events [] (by simp)).sublist ((List.filter_sublist _).map Socket.id)

/-! ## `LIKE` on patterns without wildcards -/

theorem likeChars_cons (p : Char) (ps s : List Char) :
    likeChars (p :: ps) s
      = if p = '%' then s.tails.any (likeChars ps)
        else
          match s with
          | [] => false
          | c :: cs => (p = '_' || p.toLower = c.toLower) && likeChars ps cs := by
  conv => lhs; unfold likeChars

theorem likeChars_percent (s : List Char) : likeChars ['%'] s = true := by
  rw [likeChars_cons]
  simp only [if_true, List.any_eq_true]
  exact ⟨[], by simp, by simp [likeChars]⟩

/-- `LIKE 'q%'` for a wildcard-free `q` is a prefix test up to ASCII case. -/
theorem likeChars_append_percent (q : List Char) (h1 : '%' ∉ q) (h2 : '_' ∉ q) :
    ∀ s, likeChars (q ++ ['%']) s
      = startsWithChars (s.map Char.toLower) (q.map Char.toLower) := by
  induction q with
  | nil => intro s; simp [likeChars_percent, startsWithChars]
  | cons p ps ih =>
    intro s
    have hp1 : p ≠ '%' := fun h => h1 (by simp [h])
    have hp2 : p ≠ '_' := fun h => h2 (by simp [h])
    have ih' := ih (fun h => h1 (List.mem_cons_of_mem _ h)) (fun h => h2 (List.mem_cons_of_mem _ h))
    rw [List.cons_append, likeChars_cons]
    simp only [hp1, if_false]
    cases s with
    | nil => simp [startsWithChars]
    | cons c cs =>
      simp only [ih' cs, hp2, decide_False, Bool.false_or, List.map_cons, startsWithChars]
      have hc : decide (p.toLower = c.toLower) = (c.toLower == p.toLower) := by
        by_cases h : p.toLower = c.toLower
        · simp [h]
        · have h' : ¬ c.toLower = p.toLower := fun e => h e.symm
          simp [h, h']
      rw [hc]

theorem includesChars_eq_any_tails (s t : List Char) :
    includesChars s t = s.tails.any (fun u => startsWithChars u t) := by
  induction s with
  | nil => simp [includesChars]
  | cons c cs ih => simp [includesChars, ih]

/-- `LIKE '%q%'` for a wildcard-free `q` is a substring test up to ASCII case. -/
theorem likeChars_percent_append_percent (q : List Char) (h1 : '%' ∉ q) (h2 : '_' ∉ q)
    (s : List Char) :
    likeChars ('%' :: (q ++ ['%'])) s
      = includesChars (s.map Char.toLower) (q.map Char.toLower) := by
  rw [likeChars_cons, includesChars_eq_any_tails]
  simp only [if_true]
  have : likeChars (q ++ ['%'])
      = fun u => startsWithChars (u.map Char.toLower) (q.map Char.toLower) := by
    funext u
    exact likeChars_append_percent q h1 h2 u
  rw [this]
  induction s with
  | nil => simp
  | cons c cs ih => simp [ih]

theorem cString_of_not_mem (s : List Char) (h : Char.ofNat 0 ∉ s) : cString s = s := by
  unfold cString
  rw [List.takeWhile_eq_self_iff]
  intro c hc
  simp only [ne_eq, decide_eq_true_eq]
  intro e
  exact h (e ▸ hc)

theorem sqlLike_contains (value q : String) (h : literalPattern q)
    (hlen : ("%" ++ q ++ "%").utf8ByteSize ≤ maxLikePatternLength) :
    sqlLike value ("%" ++ q ++ "%") = Except.ok (containsNoCase (upToNul value) q) := by
  unfold sqlLike containsNoCase upToNul
  rw [if_neg (by omega)]
  have hd : ("%" ++ q ++ "%").data = '%' :: (q.data ++ ['%']) := by
    simp [String.data_append]
  have hc : cString ('%' :: (q.data ++ ['%'])) = '%' :: (q.data ++ ['%']) := by
    apply cString_of_not_mem
    intro hm
    rcases List.mem_cons.mp hm with e | hm
    · exact absurd e (by decide)
    · rcases List.mem_append.mp hm with hm | hm
      · exact h.2.2 hm
      · simp only [List.mem_singleton] at hm
        exact absurd hm (by decide)
  rw [hd, hc, likeChars_percent_append_percent q.data h.1 h.2.1]

theorem sqlLike_startsWith (value t : String) (h : literalPattern t)
    (hlen : (t ++ "%").utf8ByteSize ≤ maxLikePatternLength) :
    sqlLike value (t ++ "%") = Except.ok (startsWithNoCase (upToNul value) t) := by
  unfold sqlLike startsWithNoCase upToNul
  rw [if_neg (by omega)]
  have hd : (t ++ "%").data = t.data ++ ['%'] := by
    simp [String.data_append]
  have hc : cString (t.data ++ ['%']) = t.data ++ ['%'] := by
    apply cString_of_not_mem
    intro hm
    rcases List.mem_append.mp hm with hm | hm
    · exact h.2.2 hm
    · simp only [List.mem_singleton] at hm
      exact absurd hm (by decide)
  rw [hd, hc, likeChars_append_percent t.data h.1 h.2.1]

theorem selectRows_ok (p : Row → Except String Bool) (keep : Row → Bool) (db : List Row)
    (h : ∀ r ∈ db, p r = Except.ok (keep r)) :
    selectRows p db = Except.ok (db.filter keep) := by
  induction db with
  | nil => rfl
  | cons r rest ih =>
    rw [selectRows, h r (by simp), ih (fun x hx => h x (List.mem_cons_of_mem _ hx)),
      List.filter_cons]

/-- The `WHERE` clause for a literal `q` and `type` within SQLite's length
limit: equality of users, containment and a prefix test, both up to the case
of ASCII letters and on the stored values read up to their first NUL. -/
theorem searchWhere_literal (username q type : String) (r : Row)
    (hq : literalPattern q) (htype : literalPattern type)
    (hqlen : ("%" ++ q ++ "%").utf8ByteSize ≤ maxLikePatternLength)
    (htlen : (type ++ "%").utf8ByteSize ≤ maxLikePatternLength) :
    searchWhere username q type r
      = Except.ok (decide (r.user = username)
          && (decide (q = "") || containsNoCase (upToNul r.filename) q)
          && (decide (type = "") || startsWithNoCase (upToNul r.mimetype) type)) := by
  unfold searchWhere
  by_cases hu : r.user = username
  · simp only [hu, ne_eq, not_true_eq_false, if_false, decide_True, Bool.true_and]
    by_cases hq0 : q = ""
    · by_cases ht0 : type = ""
      · simp [hq0, ht0]
      · simp [hq0, ht0, sqlLike_startsWith _ type htype htlen]
    · simp only [hq0, if_false, sqlLike_contains _ q hq hqlen, decide_False, Bool.false_or]
      cases containsNoCase (upToNul r.filename) q with
      | false => simp
      | true =>
        by_cases ht0 : type = ""
        · simp [ht0]
        · simp [ht0, sqlLike_startsWith _ type htype htlen]
  · simp [hu]

theorem searchWhere_other_user (username q type : String) (r : Row) (h : r.user ≠ username) :
    searchWhere username q type r = Except.ok false := by
  unfold searchWhere
  rw [if_pos h]

theorem mem_rowsFrom (cfg : Config) (username : String) (r : Row) (files : List UploadedFile) :
    ∀ id, r ∈ rowsFrom cfg username id files →
      ∃ file ∈ files, ∃ id', r = rowOf cfg username file id' := by
  induction files with
  | nil => intro id h; cases h
  | cons f fs ih =>
    intro id h
    rw [rowsFrom] at h
    rcases List.mem_cons.mp h with h | h
    · exact ⟨f, by simp, id, h⟩
    · obtain ⟨file, hfile, id', hr⟩ := ih (id + 1) h
      exact ⟨file, List.mem_cons_of_mem _ hfile, id', hr⟩

/-- The rows a request appends are rows of files of the request that passed
all three steps. -/
theorem postUpload_db_accepted (cfg : Config) (req : UploadRequest) (db : List Row)
    (disk : List String) :
    ∃ files, (∀ f ∈ files, accepted cfg req.username f = true)
      ∧ (postUpload cfg req db disk).2.db
          = db ++ rowsFrom cfg req.username (nextRowid db) files := by
  cases herr : req.err with
  | some msg => exact ⟨[], by simp, by simp [postUpload, herr, rowsFrom]⟩
  | none =>
    by_cases huser : req.username = ""
    · exact ⟨[], by simp, by simp [postUpload, herr, huser, rowsFrom]⟩
    · refine ⟨req.files.takeWhile (accepted cfg req.username),
        fun f hf => List.mem_takeWhile_imp hf, ?_⟩
      rw [postUpload_eq_loop cfg req db disk herr huser]
      exact (uploadLoop_takeWhile cfg req.username req.files 0 _).1

/-- Every row of a reachable table was inserted for an uploaded file that
passed all three steps; its file name and MIME type are the ones the client
sent. -/
theorem reachable_rows (cfg : Config) (db : List Row) (h : Reachable cfg db) :
    ∀ r ∈ db, ∃ file, accepted cfg r.user file = true
      ∧ r.filename = file.originalname ∧ r.mimetype = file.mimetype := by
  induction h with
  | empty => intro r hr; cases hr
  | upload req db disk _ ih =>
    intro r hr
    obtain ⟨files, hacc, hdb⟩ := postUpload_db_accepted cfg req db disk
    rw [hdb] at hr
    rcases List.mem_append.mp hr with hr | hr
    · exact ih r hr
    · obtain ⟨file, hfile, id, rfl⟩ := mem_rowsFrom cfg req.username r files _ hr
      exact ⟨file, hacc file hfile, rfl, rfl⟩

/-! ## Paths: splitting, joining and normalizing -/

theorem splitChars_ne_nil (sep : Char) (s : List Char) : splitChars sep s ≠ [] := by
  cases s with
  | nil => simp [splitChars]
  | cons c cs =>
    unfold splitChars
    by_cases hc : c = sep
    · simp [hc]
    · simp only [hc, if_false]
      cases splitChars sep cs <;> simp

theorem splitChars_cons_sep (sep : Char) (s : List Char) :
    splitChars sep (sep :: s) = [] :: splitChars sep s := by
  rw [splitChars]
  simp

theorem splitChars_cons_of_ne (sep c : Char) (s : List Char) (hc : c ≠ sep) :
    ∃ seg rest, splitChars sep s = seg :: rest
      ∧ splitChars sep (c :: s) = (c :: seg) :: rest := by
  cases h : splitChars sep s with
  | nil => exact absurd h (splitChars_ne_nil sep s)
  | cons seg rest =>
    refine ⟨seg, rest, rfl, ?_⟩
    rw [splitChars]
    simp [hc, h]

/-- Splitting distributes over a separator in the middle. -/
theorem splitChars_append_sep (sep : Char) (a b : List Char) :
    splitChars sep (a ++ sep :: b) = splitChars sep a ++ splitChars sep b := by
  induction a with
  | nil => simp [splitChars_cons_sep, splitChars]
  | cons c cs ih =>
    by_cases hc : c = sep
    · subst hc
      rw [List.cons_append, splitChars_cons_sep, splitChars_cons_sep, ih, List.cons_append]
    · obtain ⟨seg, rest, h1, h2⟩ := splitChars_cons_of_ne sep c cs hc
      obtain ⟨seg', rest', h1', h2'⟩ := splitChars_cons_of_ne sep c (cs ++ sep :: b) hc
      rw [List.cons_append, h2', h2]
      rw [ih, h1, List.cons_append] at h1'
      obtain ⟨rfl, rfl⟩ := List.cons.inj h1'
      rfl

theorem splitChars_of_not_mem (sep : Char) (s : List Char) (h : sep ∉ s) :
    splitChars sep s = [s] := by
  induction s with
  | nil => rfl
  | cons c cs ih =>
    have hc : c ≠ sep := fun e => h (by simp [e])
    obtain ⟨seg, rest, h1, h2⟩ := splitChars_cons_of_ne sep c cs hc
    rw [ih (fun hm => h (List.mem_cons_of_mem _ hm))] at h1
    obtain ⟨rfl, rfl⟩ := List.cons.inj h1
    exact h2

/-- Splitting undoes joining when no segment contains the separator. -/
theorem splitChars_joinChars (sep : Char) (segs : List (List Char)) (hne : segs ≠ [])
    (h : ∀ seg ∈ segs, sep ∉ seg) : splitChars sep (joinChars sep segs) = segs := by
  induction segs with
  | nil => exact absurd rfl hne
  | cons seg rest ih =>
    cases rest with
    | nil => simpa [joinChars] using splitChars_of_not_mem sep seg (h seg (by simp))
    | cons seg' rest' =>
      rw [joinChars, splitChars_append_sep, splitChars_of_not_mem sep seg (h seg (by simp)),
        ih (by simp) (fun x hx => h x (List.mem_cons_of_mem _ hx))]
      · rfl
      · simp

/-- No segment of a split contains the separator. -/
theorem not_mem_of_mem_splitChars (sep : Char) (s : List Char) :
    ∀ seg ∈ splitChars sep s, sep ∉ seg := by
  induction s with
  | nil => simp [splitChars]
  | cons c cs ih =>
    by_cases hc : c = sep
    · subst hc
      rw [splitChars_cons_sep]
      intro seg hseg
      rcases List.mem_cons.mp hseg with rfl | hseg
      · simp
      · exact ih seg hseg
    · obtain ⟨seg0, rest, h1, h2⟩ := splitChars_cons_of_ne sep c cs hc
      rw [h2]
      rw [h1] at ih
      intro seg hseg
      rcases List.mem_cons.mp hseg with rfl | hseg
      · intro hm
        rcases List.mem_cons.mp hm with e | hm
        · exact hc e.symm
        · exact ih seg0 (by simp) hm
      · exact ih seg (List.mem_cons_of_mem _ hseg)

/-- Segments other than `..` act on the stack of `normalizeString` by being
pushed, the empty ones and `.` excepted. -/
theorem foldl_normStep_of_no_dotdot (b : Bool) (segs : List (List Char))
    (h : ['.', '.'] ∉ segs) :
    ∀ stack, segs.foldl (normStep b) stack
      = (segs.filter fun seg => decide (¬ (seg = [] ∨ seg = ['.']))).reverse ++ stack := by
  induction segs with
  | nil => intro stack; rfl
  | cons seg rest ih =>
    intro stack
    have hseg : seg ≠ ['.', '.'] := fun e => h (by simp [e])
    have ih' := ih (fun hm => h (List.mem_cons_of_mem _ hm))
    rw [List.foldl_cons, ih', List.filter_cons]
    by_cases hskip : seg = [] ∨ seg = ['.']
    · have hn : normStep b stack seg = stack := by simp [normStep, hskip]
      rw [hn]
      simp [hskip]
    · have hn : normStep b stack seg = seg :: stack := by simp [normStep, hskip, hseg]
      rw [hn]
      simp [hskip]

theorem normStep_false_kept (stack : List (List Char)) (seg : List Char)
    (hstack : ∀ x ∈ stack, KeptSeg x) (hseg : '/' ∉ seg) :
    ∀ x ∈ normStep false stack seg, KeptSeg x := by
  unfold normStep
  by_cases hskip : seg = [] ∨ seg = ['.']
  · simpa [hskip] using hstack
  · by_cases hdd : seg = ['.', '.']
    · simp only [hskip, hdd, if_false, if_true]
      cases stack with
      | nil => simp
      | cons top below =>
        by_cases htop : top = ['.', '.']
        · simpa [htop] using hstack
        · simp only [htop, if_false]
          exact fun x hx => hstack x (List.mem_cons_of_mem _ hx)
    · simp only [hskip, hdd, if_false]
      intro x hx
      rcases List.mem_cons.mp hx with rfl | hx
      · exact ⟨fun e => hskip (Or.inl e), fun e => hskip (Or.inr e), hdd, hseg⟩
      · exact hstack x hx

theorem foldl_normStep_false_kept (segs : List (List Char)) (hsegs : ∀ seg ∈ segs, '/' ∉ seg) :
    ∀ stack, (∀ x ∈ stack, KeptSeg x) →
      ∀ x ∈ segs.foldl (normStep false) stack, KeptSeg x := by
  induction segs with
  | nil => intro stack h; simpa using h
  | cons seg rest ih =>
    intro stack h
    rw [List.foldl_cons]
    exact ih (fun x hx => hsegs x (List.mem_cons_of_mem _ hx)) _
      (normStep_false_kept stack seg h (hsegs seg (by simp)))

theorem normSegs_false_kept (path : List Char) : ∀ x ∈ normSegs false path, KeptSeg x := by
  intro x hx
  unfold normSegs at hx
  rw [List.mem_reverse] at hx
  exact foldl_normStep_false_kept _ (not_mem_of_mem_splitChars '/' path) [] (by simp) x hx

theorem joinChars_eq_nil (sep : Char) (segs : List (List Char))
    (h : ∀ seg ∈ segs, seg ≠ []) (hj : joinChars sep segs = []) : segs = [] := by
  cases segs with
  | nil => rfl
  | cons seg rest =>
    have hseg := h seg (by simp)
    cases rest with
    | nil => simp [joinChars] at hj; exact absurd hj hseg
    | cons seg' rest' => simp [joinChars] at hj

/-- The segments of a normalized absolute path: an empty one for the root,
the kept segments, and an empty one more when a trailing slash is kept. -/
theorem splitChars_normalizeChars_absolute (rest : List Char) :
    ∃ tail, (tail = [] ∨ tail = [[]])
      ∧ splitChars '/' (normalizeChars ('/' :: rest))
          = [] :: (normSegs false ('/' :: rest) ++ tail) := by
  have hkept := normSegs_false_kept ('/' :: rest)
  have hsep : ∀ seg ∈ normSegs false ('/' :: rest), '/' ∉ seg := fun seg hs => (hkept seg hs).2.2.2
  have hne : ∀ seg ∈ normSegs false ('/' :: rest), seg ≠ [] := fun seg hs => (hkept seg hs).1
  unfold normalizeChars
  simp only [decide_True, Bool.not_true, if_true]
  by_cases hbody : joinChars '/' (normSegs false ('/' :: rest)) = []
  · have hS := joinChars_eq_nil '/' _ hne hbody
    refine ⟨[[]], Or.inr rfl, ?_⟩
    rw [if_pos hbody, hS]
    rfl
  · have hS : normSegs false ('/' :: rest) ≠ [] := by
      intro e
      rw [e] at hbody
      exact hbody rfl
    rw [if_neg hbody]
    by_cases htr : ('/' :: rest).getLast? = some '/'
    · refine ⟨[[]], Or.inr rfl, ?_⟩
      rw [if_pos htr, splitChars_cons_sep, splitChars_append_sep,
        splitChars_joinChars '/' _ hS hsep]
      rfl
    · refine ⟨[], Or.inl rfl, ?_⟩
      rw [if_neg htr, splitChars_cons_sep, splitChars_joinChars '/' _ hS hsep,
        List.append_nil]

theorem filter_named_of_kept (segs : List (List Char)) (h : ∀ x ∈ segs, KeptSeg x) :
    (segs.filter fun seg => decide (¬ (seg = [] ∨ seg = ['.']))) = segs := by
  rw [List.filter_eq_self]
  intro x hx
  have := h x hx
  simp [this.1, this.2.1]

/-- Normalizing an absolute path does not change its kept segments. -/
theorem normSegs_normalizeChars_absolute (rest : List Char) :
    normSegs false (normalizeChars ('/' :: rest)) = normSegs false ('/' :: rest) := by
  obtain ⟨tail, htail, hsplit⟩ := splitChars_normalizeChars_absolute rest
  have hkept := normSegs_false_kept ('/' :: rest)
  have hdd : ['.', '.'] ∉ ([] :: (normSegs false ('/' :: rest) ++ tail) : List (List Char)) := by
    intro hm
    rcases List.mem_cons.mp hm with e | hm
    · cases e
    · rcases List.mem_append.mp hm with hm | hm
      · exact (hkept _ hm).2.2.1 rfl
      · rcases htail with rfl | rfl
        · cases hm
        · simp at hm
  conv => lhs; unfold normSegs
  rw [hsplit, foldl_normStep_of_no_dotdot false _ hdd]
  simp only [List.append_nil, List.reverse_reverse]
  rw [List.filter_cons]
  simp only [true_or, not_true_eq_false, decide_False, Bool.false_eq_true, if_false]
  rw [List.filter_append, filter_named_of_kept _ hkept]
  rcases htail with rfl | rfl <;> simp

theorem normalizeChars_absolute_head (rest : List Char) :
    ∃ rest', normalizeChars ('/' :: rest) = '/' :: rest' := by
  unfold normalizeChars
  simp only [decide_True, Bool.not_true, if_true]
  split
  · exact ⟨[], rfl⟩
  · exact ⟨_, rfl⟩

theorem joinPathChars_absolute (r b : List Char) :
    ∃ a, joinPathChars ['/' :: r, b] = normalizeChars ('/' :: a) := by
  by_cases hb : b = []
  · exact ⟨r, by simp [joinPathChars, hb, joinChars]⟩
  · exact ⟨r ++ '/' :: b, by simp [joinPathChars, hb, joinChars]⟩

/-- Joining a name without `..` segments onto a normalized absolute path
appends the name's named segments to the path's segments. -/
theorem normSegs_joinPathChars_absolute (a name : List Char)
    (hdd : ['.', '.'] ∉ splitChars '/' name) :
    normSegs false (joinPathChars [normalizeChars ('/' :: a), name])
      = normSegs false ('/' :: a) ++ namedSegs name := by
  obtain ⟨r, hr⟩ := normalizeChars_absolute_head a
  rw [hr]
  by_cases hb : name = []
  · have hj : joinPathChars ['/' :: r, name] = normalizeChars ('/' :: r) := by
      simp [joinPathChars, hb, joinChars]
    rw [hj, normSegs_normalizeChars_absolute, ← hr, normSegs_normalizeChars_absolute, hb]
    simp [namedSegs, splitChars]
  · have hj : joinPathChars ['/' :: r, name] = normalizeChars ('/' :: (r ++ '/' :: name)) := by
      simp [joinPathChars, hb, joinChars]
    rw [hj, normSegs_normalizeChars_absolute]
    have hsplit : splitChars '/' ('/' :: (r ++ '/' :: name))
        = splitChars '/' ('/' :: r) ++ splitChars '/' name := by
      rw [← List.cons_append, splitChars_append_sep]
    conv => lhs; unfold normSegs
    rw [hsplit, List.foldl_append, foldl_normStep_of_no_dotdot false _ hdd, List.reverse_append,
      List.reverse_reverse]
    have hU : (List.foldl (normStep false) [] (splitChars '/' ('/' :: r))).reverse
        = normSegs false ('/' :: a) := by
      rw [← normSegs_normalizeChars_absolute a, hr]
      rfl
    rw [hU]
    rfl

theorem commonSegs_append (l m : List (List Char)) : commonSegs l (l ++ m) = l.length := by
  induction l with
  | nil => cases m <;> rfl
  | cons x l ih => simp [commonSegs, ih]

/-- The relative path of a file stored under an absolute directory by a name
without `..` segments: the name's named segments, joined by slashes. -/
theorem relativeChars_joinPathChars (a name : List Char)
    (hdd : ['.', '.'] ∉ splitChars '/' name) :
    relativeChars (normalizeChars ('/' :: a))
        (joinPathChars [normalizeChars ('/' :: a), name])
      = joinChars '/' (namedSegs name) := by
  unfold relativeChars
  simp only [normSegs_joinPathChars_absolute a name hdd, normSegs_normalizeChars_absolute,
    commonSegs_append, Nat.sub_self, List.replicate_zero, List.nil_append,
    List.drop_left]

/-- The user's directory is a normalized absolute path when `__dirname` is
absolute. -/
theorem userDir_absolute (cfg : Config) (username : String) (r : List Char)
    (habs : cfg.dirname.data = '/' :: r) :
    ∃ a, (userDir cfg username).data = normalizeChars ('/' :: a) := by
  have hroot : ∃ r', (UPLOAD_ROOT cfg).data = '/' :: r' := by
    obtain ⟨a, ha⟩ := joinPathChars_absolute r "uploads".data
    obtain ⟨r', hr'⟩ := normalizeChars_absolute_head a
    exact ⟨r', by
      show joinPathChars [cfg.dirname.data, "uploads".data] = _
      rw [habs, ha, hr']⟩
  obtain ⟨r', hr'⟩ := hroot
  obtain ⟨a, ha⟩ := joinPathChars_absolute r' username.data
  exact ⟨a, by
    show joinPathChars [(UPLOAD_ROOT cfg).data, username.data] = _
    rw [hr', ha]⟩

/-- The recorded relative path before the backslash replacement, for a name
without `..` segments. -/
theorem pathRelative_filePath (cfg : Config) (username : String) (file : UploadedFile)
    (r : List Char) (habs : cfg.dirname.data = '/' :: r)
    (hdd : ['.', '.'] ∉ splitChars '/' file.originalname.data) :
    (pathRelative (pathJoin [UPLOAD_ROOT cfg, username]) (filePath cfg username file)).data
      = joinChars '/' (namedSegs file.originalname.data) := by
  obtain ⟨a, ha⟩ := userDir_absolute cfg username r habs
  have h := relativeChars_joinPathChars a file.originalname.data hdd
  rw [← ha] at h
  exact h

theorem replaceBackslashChars_no_backslash (s : List Char) :
    '\\' ∉ replaceBackslashChars s := by
  unfold replaceBackslashChars
  intro hm
  obtain ⟨c, _, hc⟩ := List.mem_map.mp hm
  by_cases h : c = '\\'
  · rw [if_pos h] at hc
    exact absurd hc (by decide)
  · rw [if_neg h] at hc
    exact h hc

theorem replaceBackslashChars_of_not_mem (s : List Char) (h : '\\' ∉ s) :
    replaceBackslashChars s = s := by
  unfold replaceBackslashChars
  induction s with
  | nil => rfl
  | cons c cs ih =>
    have hc : c ≠ '\\' := fun e => h (by simp [e])
    rw [List.map_cons, if_neg hc, ih (fun hm => h (List.mem_cons_of_mem _ hm))]

theorem mem_joinChars (sep c : Char) (segs : List (List Char)) (h : c ∈ joinChars sep segs) :
    c = sep ∨ ∃ seg ∈ segs, c ∈ seg := by
  induction segs with
  | nil => cases h
  | cons seg rest ih =>
    cases rest with
    | nil => exact Or.inr ⟨seg, by simp, by simpa [joinChars] using h⟩
    | cons seg' rest' =>
      rw [joinChars] at h
      · rcases List.mem_append.mp h with h | h
        · exact Or.inr ⟨seg, by simp, h⟩
        · rcases List.mem_cons.mp h with h | h
          · exact Or.inl h
          · rcases ih h with h | ⟨x, hx, hc⟩
            · exact Or.inl h
            · exact Or.inr ⟨x, List.mem_cons_of_mem _ hx, hc⟩
      · simp

theorem mem_of_mem_splitChars (sep c : Char) (s : List Char) :
    ∀ seg ∈ splitChars sep s, c ∈ seg → c ∈ s := by
  induction s with
  | nil => intro seg hseg hc; simp [splitChars] at hseg; subst hseg; cases hc
  | cons d ds ih =>
    intro seg hseg hc
    by_cases hd : d = sep
    · subst hd
      rw [splitChars_cons_sep] at hseg
      rcases List.mem_cons.mp hseg with rfl | hseg
      · cases hc
      · exact List.mem_cons_of_mem _ (ih seg hseg hc)
    · obtain ⟨seg0, rest, h1, h2⟩ := splitChars_cons_of_ne sep d ds hd
      rw [h2] at hseg
      rw [h1] at ih
      rcases List.mem_cons.mp hseg with rfl | hseg
      · rcases List.mem_cons.mp hc with rfl | hc
        · simp
        · exact List.mem_cons_of_mem _ (ih seg0 (by simp) hc)
      · exact List.mem_cons_of_mem _ (ih seg (List.mem_cons_of_mem _ hseg) hc)

theorem mem_recordsFrom_insert (cfg : Config) (username : String) (k : Nat) (row : Row)
    (files : List UploadedFile) :
    ∀ i id, (k, Action.insert row) ∈ recordsFrom cfg username i id files →
      ∃ file ∈ files, ∃ id', row = rowOf cfg username file id' := by
  induction files with
  | nil => intro i id h; cases h
  | cons f fs ih =>
    intro i id h
    rw [recordsFrom] at h
    rcases List.mem_cons.mp h with h | h
    · have hrow : row = rowOf cfg username f id := by
        injection h with _ h2
        injection h2
      exact ⟨f, by simp, id, hrow⟩
    · rcases List.mem_cons.mp h with h | h
      · injection h with _ h2
        cases h2
      · obtain ⟨file, hfile, id', hrow⟩ := ih (i + 1) (id + 1) h
        exact ⟨file, List.mem_cons_of_mem _ hfile, id', hrow⟩

/-- Every insert of a request is the insert of the row of one of its files. -/
theorem insert_postUpload (cfg : Config) (req : UploadRequest) (db : List Row)
    (disk : List String) (k : Nat) (row : Row)
    (h : (k, Action.insert row) ∈ (postUpload cfg req db disk).2.log) :
    ∃ file ∈ req.files, ∃ id, row = rowOf cfg req.username file id := by
  cases herr : req.err with
  | some msg => simp [postUpload, herr] at h
  | none =>
    by_cases huser : req.username = ""
    · simp [postUpload, herr, huser] at h
    · have hrec : (k, Action.insert row) ∈ recordEntries (postUpload cfg req db disk).2.log := by
        unfold recordEntries
        exact List.mem_filter.mpr ⟨h, rfl⟩
      rw [postUpload_eq_loop cfg req db disk herr huser,
        (uploadLoop_takeWhile cfg req.username req.files 0 _).2.1] at hrec
      simp only [recordEntries, List.filter_nil, List.nil_append] at hrec
      obtain ⟨file, hfile, id, hrow⟩ := mem_recordsFrom_insert cfg req.username k row _ 0 _ hrec
      exact ⟨file, (List.takeWhile_sublist _).subset hfile, id, hrow⟩

/-- The named segments of a name without backslashes and `..` segments, joined
by slashes: no backslash, no `..` segment, no leading slash. -/
theorem joinChars_namedSegs (name : List Char) (hbs : '\\' ∉ name)
    (hdd : ['.', '.'] ∉ splitChars '/' name) :
    '\\' ∉ joinChars '/' (namedSegs name)
      ∧ ['.', '.'] ∉ splitChars '/' (joinChars '/' (namedSegs name))
      ∧ (joinChars '/' (namedSegs name)).head? ≠ some '/' := by
  have hsub : ∀ seg ∈ namedSegs name, seg ∈ splitChars '/' name :=
    fun seg hs => (List.mem_filter.mp hs).1
  have hsep : ∀ seg ∈ namedSegs name, '/' ∉ seg :=
    fun seg hs => not_mem_of_mem_splitChars '/' name seg (hsub seg hs)
  have hne : ∀ seg ∈ namedSegs name, seg ≠ [] := by
    intro seg hs e
    have := (List.mem_filter.mp hs).2
    simp [e] at this
  refine ⟨?_, ?_, ?_⟩
  · intro hm
    rcases mem_joinChars '/' '\\' _ hm with h | ⟨seg, hseg, hc⟩
    · exact absurd h (by decide)
    · exact hbs (mem_of_mem_splitChars '/' '\\' name seg (hsub seg hseg) hc)
  · cases hC : namedSegs name with
    | nil => simp [joinChars, splitChars]
    | cons seg rest =>
      rw [← hC, splitChars_joinChars '/' _ (by simp [hC]) hsep]
      exact fun hm => hdd (hsub _ hm)
  · cases hC : namedSegs name with
    | nil => simp [joinChars]
    | cons seg rest =>
      have hseg : seg ∈ namedSegs name := by simp [hC]
      cases hs : seg with
      | nil => exact absurd hs (hne seg hseg)
      | cons c cs =>
        have hc : c ≠ '/' := by
          intro e
          exact hsep seg hseg (by simp [hs, e])
        cases rest with
        | nil => simpa [joinChars] using hc
        | cons seg' rest' => simpa [joinChars] using hc

/-- An error of `fs.ensureDir` ends the request like any other error of
`makeThumbnail`, also for a file that is neither an image nor a video. -/
theorem ensureDir_failure_aborts :
    (postUpload demoCfg (batch "alice/x.png.jpg" [blocked]) [] []).1
        = Response.send 500 "Upload failed: EEXIST: file already exists, mkdir"
      ∧ (postUpload demoCfg (batch "alice/x.png.jpg" [blocked]) [] []).2.db = [] := by
  decide

/-! ## Results on the upload pipeline, the catalog and the rooms -/

/-- C10 (as stated, refuted): a request with no file and no username has an
empty batch, whose longest passing run is the whole batch, and is answered
with status 400 `Missing username`, not with `{success: true}`. -/
theorem empty_batch_without_username_rejected :
    ([] : List UploadedFile).takeWhile (accepted demoCfg "") = []
      ∧ (postUpload demoCfg { err := none, username := "", files := [] } [] []).1
          = Response.send 400 "Missing username" := by
  decide

/-- C10 (amended): for a request that reaches the loop (multer reported no error and a
username is present), the rows inserted and the inserts and emits logged are
exactly those of the longest prefix of the batch whose files all pass the
scan, the type check and `makeThumbnail`, file by file in batch order with
each insert before its emit; the response is `{success: true}` exactly when
that prefix is the whole batch and has status 400 or 500 otherwise; the files
scanned are those of the prefix and the first failing file only, and every
file after the failing one is still on disk unless it shares the failing
file's path. -/
theorem upload_records_longest_accepted_run (cfg : Config) (req : UploadRequest)
    (db : List Row) (disk : List String) (herr : req.err = none) (huser : req.username ≠ "") :
    (postUpload cfg req db disk).2.db
        = db ++ rowsFrom cfg req.username (nextRowid db)
            (req.files.takeWhile (accepted cfg req.username))
      ∧ recordEntries (postUpload cfg req db disk).2.log
          = recordsFrom cfg req.username 0 (nextRowid db)
              (req.files.takeWhile (accepted cfg req.username))
      ∧ ((postUpload cfg req db disk).1 = Response.success
          ↔ req.files.takeWhile (accepted cfg req.username) = req.files)
      ∧ ((postUpload cfg req db disk).1 = Response.success
          ∨ ∃ text, (postUpload cfg req db disk).1 = Response.send 400 text
              ∨ (postUpload cfg req db disk).1 = Response.send 500 text)
      ∧ scannedIndices (postUpload cfg req db disk).2.log
          = List.range (min ((req.files.takeWhile (accepted cfg req.username)).length + 1)
              req.files.length)
      ∧ ∀ bad post,
          req.files = req.files.takeWhile (accepted cfg req.username) ++ bad :: post →
          ∀ f ∈ post, filePath cfg req.username f ≠ filePath cfg req.username bad →
            filePath cfg req.username f ∈ (postUpload cfg req db disk).2.disk := by
  rw [postUpload_eq_loop cfg req db disk herr huser]
  obtain ⟨h1, h2, h3, h4, h5, _, h7⟩ := uploadLoop_takeWhile cfg req.username req.files 0
    { db := db, disk := disk ++ req.files.map (filePath cfg req.username), log := [] }
  refine ⟨h1, ?_, h3, h4, ?_, ?_⟩
  · rw [h2]; simp [recordEntries]
  · rw [h5, List.range_eq_range']; simp [scannedIndices]
  · intro bad post h f hf hpath
    apply h7 bad post h _ _ hpath
    simp only [List.mem_append, List.mem_map]
    right
    refine ⟨f, ?_, rfl⟩
    rw [h]
    simp [hf]

/-- The batch `[photo, disguised, clip]` of `alice` on an empty table: the rows are those of the accepted run `[photo]`. -/
theorem upload_records_longest_accepted_run_witness :
    (batch "alice" [photo, disguised, clip]).err = none
      ∧ (batch "alice" [photo, disguised, clip]).username ≠ ""
      ∧ (postUpload demoCfg (batch "alice" [photo, disguised, clip]) [] []).2.db
          = [] ++ rowsFrom demoCfg "alice" (nextRowid [])
              ([photo, disguised, clip].takeWhile (accepted demoCfg "alice")) :=
  ⟨rfl, by decide,
    (upload_records_longest_accepted_run demoCfg (batch "alice" [photo, disguised, clip])
      [] [] rfl (by decide)).1⟩

/-- C1 (as stated, refuted): a font sniffed as `font/ttf` and declared
`application/x-font-ttf` differs in category from its declaration and is
recorded all the same, because the handler only asks whether the sniffed
category occurs somewhere in the declared type; and a mismatching file that
comes after another mismatching file is never looked at, so it is still on
disk when the handler responds. -/
theorem type_mismatch_not_always_rejected :
    (topLevel "font/ttf" ≠ topLevel font.mimetype
        ∧ (postUpload demoCfg (batch "alice" [font]) [] []).1 = Response.success
        ∧ (postUpload demoCfg (batch "alice" [font]) [] []).2.db
            = [rowOf demoCfg "alice" font 1])
      ∧ (topLevel "application/pdf" ≠ topLevel mislabelled.mimetype
        ∧ filePath demoCfg "alice" mislabelled
            ∈ (postUpload demoCfg (batch "alice" [disguised, mislabelled]) [] []).2.disk) := by
  decide

/-- C1 (amended): a file the loop reaches (every earlier file of the batch
passes the scan, the type check and `makeThumbnail`) and that scans clean is
rejected when the handler's type check fails, that is when nothing is sniffed
or the sniffed top-level category does not occur in the declared MIME type:
the response is 400 `File type mismatch or disallowed`, the only actions for
the file are its scan, its sniff and its unlink (no insert, no emit), the
table holds the rows of the earlier files only, and the file's path is gone
from disk when the handler responds. -/
theorem type_mismatch_rejected_when_reached (cfg : Config) (req : UploadRequest)
    (db : List Row) (disk : List String) (pre post : List UploadedFile) (bad : UploadedFile)
    (herr : req.err = none) (huser : req.username ≠ "")
    (hfiles : req.files = pre ++ bad :: post)
    (hpre : ∀ f ∈ pre, accepted cfg req.username f = true)
    (hs : bad.scanClean = true) (ht : typeRejected bad = true) :
    (postUpload cfg req db disk).1 = Response.send 400 "File type mismatch or disallowed"
      ∧ entriesOf pre.length (postUpload cfg req db disk).2.log
          = [Action.scan (filePath cfg req.username bad),
             Action.sniff (filePath cfg req.username bad),
             Action.unlink (filePath cfg req.username bad)]
      ∧ (postUpload cfg req db disk).2.db = db ++ rowsFrom cfg req.username (nextRowid db) pre
      ∧ filePath cfg req.username bad ∉ (postUpload cfg req db disk).2.disk := by
  have hbad : accepted cfg req.username bad = false := by simp [accepted, hs, ht]
  rw [postUpload_reaches cfg req db disk pre (bad :: post) herr huser hfiles hpre,
    uploadLoop_cons_rejected cfg req.username _ bad post _ hbad,
    uploadLoop_single_typeRejected cfg req.username _ bad _ hs ht]
  refine ⟨rfl, ?_, rfl, ?_⟩
  · show entriesOf pre.length (logFrom cfg req.username 0 (nextRowid db) pre ++ _) = _
    rw [entriesOf_append,
      entriesOf_logFrom_of_ge cfg req.username pre.length pre 0 (nextRowid db) (by omega)]
    simp [entriesOf]
  · simp

/-- In the batch `[photo, disguised, clip]` the executable is reached, rejected with status 400 and unlinked. -/
theorem type_mismatch_rejected_when_reached_witness :
    (postUpload demoCfg (batch "alice" [photo, disguised, clip]) [] []).1
        = Response.send 400 "File type mismatch or disallowed"
      ∧ filePath demoCfg "alice" disguised
          ∉ (postUpload demoCfg (batch "alice" [photo, disguised, clip]) [] []).2.disk :=
  have h := type_mismatch_rejected_when_reached demoCfg (batch "alice" [photo, disguised, clip])
    [] [] [photo] [clip] disguised rfl (by decide) rfl (by decide) rfl (by decide)
  ⟨h.1, h.2.2.2⟩

/-- C2 (the code at the failing input): a batch of one file that `clamscan`
flags is answered with status 500, no row and no event, but the file is still
under the upload root when the handler responds: the `catch` does not unlink
it, unlike the type-mismatch branch. -/
theorem scan_failure_leaves_file_on_disk :
    (postUpload demoCfg (batch "alice" [infected]) [] []).1
        = Response.send 500 "Upload failed: Virus detected or scan error"
      ∧ (postUpload demoCfg (batch "alice" [infected]) [] []).2.db = []
      ∧ emitted (postUpload demoCfg (batch "alice" [infected]) [] []).2.log = []
      ∧ filePath demoCfg "alice" infected = "/srv/app/uploads/alice/eicar.png"
      ∧ filePath demoCfg "alice" infected
          ∈ (postUpload demoCfg (batch "alice" [infected]) [] []).2.disk := by
  decide

/-- C3 (as stated, refuted): in the batch `[disguised, clip]` the first file
fails the type check, and the sound MP4 behind it, which would pass every
step, is not scanned, not recorded and not broadcast. -/
theorem later_file_not_attempted_after_failure :
    accepted demoCfg "alice" clip = true
      ∧ scannedIndices (postUpload demoCfg (batch "alice" [disguised, clip]) [] []).2.log = [0]
      ∧ (postUpload demoCfg (batch "alice" [disguised, clip]) [] []).2.db = []
      ∧ emitted (postUpload demoCfg (batch "alice" [disguised, clip]) [] []).2.log = [] := by
  decide

/-- C3 (amended): the handler takes the files in batch order and stops at the
first one that fails.  When `bad` is the first file of the batch that fails a
step, the files scanned are those before it and `bad` itself, the rows
inserted and the events emitted (to the room of the batch's username) are
those of the files before it, one per file in batch order, and the response
is not `{success: true}`; the files after `bad` are not attempted. -/
theorem upload_stops_at_first_failure (cfg : Config) (req : UploadRequest)
    (db : List Row) (disk : List String) (pre post : List UploadedFile) (bad : UploadedFile)
    (herr : req.err = none) (huser : req.username ≠ "")
    (hfiles : req.files = pre ++ bad :: post)
    (hpre : ∀ f ∈ pre, accepted cfg req.username f = true)
    (hbad : accepted cfg req.username bad = false) :
    scannedIndices (postUpload cfg req db disk).2.log = List.range (pre.length + 1)
      ∧ (postUpload cfg req db disk).2.db = db ++ rowsFrom cfg req.username (nextRowid db) pre
      ∧ emitted (postUpload cfg req db disk).2.log
          = pre.map (fun f =>
              (req.username, eventOf cfg req.username f (thumbRelOf cfg req.username f)))
      ∧ (postUpload cfg req db disk).1 ≠ Response.success := by
  rw [postUpload_reaches cfg req db disk pre (bad :: post) herr huser hfiles hpre,
    uploadLoop_cons_rejected cfg req.username _ bad post _ hbad]
  obtain ⟨h1, h2, h3, h4, _⟩ := uploadLoop_single_rejected cfg req.username pre.length bad
    { db := db ++ rowsFrom cfg req.username (nextRowid db) pre
      disk := disk ++ req.files.map (filePath cfg req.username)
      log := logFrom cfg req.username 0 (nextRowid db) pre } hbad
  refine ⟨?_, h1, ?_, ?_⟩
  · rw [h3, scannedIndices_logFrom, List.range_succ, List.range_eq_range']
  · rw [← emitted_recordEntries, h2, emitted_recordEntries, emitted_logFrom]
  · intro h
    obtain ⟨text, ht | ht⟩ := h4 <;> rw [ht] at h <;> cases h

/-- In the batch `[photo, disguised, clip]` the files at indices 0 and 1 are scanned and the response is an error. -/
theorem upload_stops_at_first_failure_witness :
    scannedIndices (postUpload demoCfg (batch "alice" [photo, disguised, clip]) [] []).2.log
        = List.range (1 + 1)
      ∧ (postUpload demoCfg (batch "alice" [photo, disguised, clip]) [] []).1
          ≠ Response.success :=
  have h := upload_stops_at_first_failure demoCfg (batch "alice" [photo, disguised, clip])
    [] [] [photo] [clip] disguised rfl (by decide) rfl (by decide) (by decide)
  ⟨h.1, h.2.2.2⟩

/-- C4 (as stated, refuted): in the batch `[disguised, photo]` the JPEG scans
clean and its sniffed category equals its declared category, yet no row is
inserted and no event emitted for it, because the file before it failed. -/
theorem clean_matching_file_not_recorded_after_failure :
    photo.scanClean = true
      ∧ photo.sniffed = some "image/jpeg"
      ∧ topLevel "image/jpeg" = topLevel photo.mimetype
      ∧ (postUpload demoCfg (batch "alice" [disguised, photo]) [] []).2.db = []
      ∧ entriesOf 1 (postUpload demoCfg (batch "alice" [disguised, photo]) [] []).2.log = [] := by
  decide

/-- C4 (amended): a file the loop reaches (every earlier file of the batch
passes all three steps) that scans clean, whose sniffed top-level category
equals its declared one and for which `makeThumbnail` does not throw gets
exactly these actions, in this order: scan, sniff, thumbnail, one insert, one
emit.  The inserted row carries the batch's username and the size multer
wrote, the emit goes to the room named by the batch's username, and the row
is in the table when the handler responds. -/
theorem accepted_file_recorded_once (cfg : Config) (req : UploadRequest)
    (db : List Row) (disk : List String) (pre post : List UploadedFile) (file : UploadedFile)
    (mime : String) (t : Option String)
    (herr : req.err = none) (huser : req.username ≠ "")
    (hfiles : req.files = pre ++ file :: post)
    (hpre : ∀ f ∈ pre, accepted cfg req.username f = true)
    (hs : file.scanClean = true) (hsn : file.sniffed = some mime)
    (hcat : topLevel mime = topLevel file.mimetype)
    (hth : thumbOf cfg req.username file = Except.ok t) :
    entriesOf pre.length (postUpload cfg req db disk).2.log
        = [Action.scan (filePath cfg req.username file),
           Action.sniff (filePath cfg req.username file),
           Action.thumbnail (filePath cfg req.username file),
           Action.insert (rowOf cfg req.username file (nextRowid db + pre.length)),
           Action.emit req.username (eventOf cfg req.username file t)]
      ∧ (rowOf cfg req.username file (nextRowid db + pre.length)).size = file.size
      ∧ (rowOf cfg req.username file (nextRowid db + pre.length)).user = req.username
      ∧ rowOf cfg req.username file (nextRowid db + pre.length)
          ∈ (postUpload cfg req db disk).2.db := by
  have ht := typeRejected_false_of_same_category file mime hsn hcat
  have hacc := accepted_of_steps cfg req.username file t hs ht hth
  have hrel : thumbRelOf cfg req.username file = t := by simp [thumbRelOf, hth]
  rw [postUpload_reaches cfg req db disk pre (file :: post) herr huser hfiles hpre,
    uploadLoop_cons_accepted cfg req.username _ file post _ hacc]
  refine ⟨?_, rfl, rfl, ?_⟩
  · rw [entriesOf_uploadLoop_of_lt cfg req.username pre.length post (pre.length + 1) _ (by omega)]
    show entriesOf pre.length (logFrom cfg req.username 0 (nextRowid db) pre ++ _) = _
    rw [entriesOf_append,
      entriesOf_logFrom_of_ge cfg req.username pre.length pre 0 (nextRowid db) (by omega)]
    simp [entriesOf, logFrom, acceptedLog, nextRowid_append_rowsFrom, hrel]
  · have h1 := (uploadLoop_takeWhile cfg req.username post (pre.length + 1)
      (afterAccepted cfg req.username pre.length [file]
        { db := db ++ rowsFrom cfg req.username (nextRowid db) pre
          disk := disk ++ req.files.map (filePath cfg req.username)
          log := logFrom cfg req.username 0 (nextRowid db) pre })).1
    rw [h1]
    simp [afterAccepted, rowsFrom, nextRowid_append_rowsFrom]

/-- In the batch `[photo, clip]` the MP4 is recorded with the size multer wrote. -/
theorem accepted_file_recorded_once_witness :
    (rowOf demoCfg "alice" clip (nextRowid [] + [photo].length)).size = 8192
      ∧ rowOf demoCfg "alice" clip (nextRowid [] + [photo].length)
          ∈ (postUpload demoCfg (batch "alice" [photo, clip]) [] []).2.db :=
  have h := accepted_file_recorded_once demoCfg (batch "alice" [photo, clip]) [] []
    [photo] [] clip "video/mp4" (some "alice/clip.mp4.jpg") rfl (by decide) rfl
    (by decide) rfl rfl (by decide) (by rfl)
  ⟨h.2.1, h.2.2.2⟩

/-- C6 (as stated, refuted): the PNG `truncated` passes the scan and the type
check and `sharp` throws on it; the handler answers 500, inserts no row, emits
no event and never reaches the sound JPEG behind it. -/
theorem thumbnail_failure_not_tolerated :
    truncated.scanClean = true
      ∧ typeRejected truncated = false
      ∧ (postUpload demoCfg (batch "alice" [truncated, photo]) [] []).1
          = Response.send 500 "Upload failed: Input file contains unsupported image format"
      ∧ (postUpload demoCfg (batch "alice" [truncated, photo]) [] []).2.db = []
      ∧ emitted (postUpload demoCfg (batch "alice" [truncated, photo]) [] []).2.log = []
      ∧ scannedIndices (postUpload demoCfg (batch "alice" [truncated, photo]) [] []).2.log
          = [0] := by
  decide

/-- C6 (amended): when `makeThumbnail` throws for a file the loop reaches that
passed the scan and the type check, the error lands in the handler's `catch`:
the response is 500 `Upload failed: ` followed by the error's message, the
only actions for the file are its scan, its sniff and the thumbnail attempt
(no insert, no emit), the table holds the rows of the earlier files only, the
remaining files of the batch are not attempted, and the file stays on disk. -/
theorem thumbnail_failure_aborts_batch (cfg : Config) (req : UploadRequest)
    (db : List Row) (disk : List String) (pre post : List UploadedFile) (file : UploadedFile)
    (msg : String) (herr : req.err = none) (huser : req.username ≠ "")
    (hfiles : req.files = pre ++ file :: post)
    (hpre : ∀ f ∈ pre, accepted cfg req.username f = true)
    (hs : file.scanClean = true) (ht : typeRejected file = false)
    (hth : thumbOf cfg req.username file = Except.error msg) :
    (postUpload cfg req db disk).1 = Response.send 500 ("Upload failed: " ++ msg)
      ∧ entriesOf pre.length (postUpload cfg req db disk).2.log
          = [Action.scan (filePath cfg req.username file),
             Action.sniff (filePath cfg req.username file),
             Action.thumbnail (filePath cfg req.username file)]
      ∧ (postUpload cfg req db disk).2.db = db ++ rowsFrom cfg req.username (nextRowid db) pre
      ∧ scannedIndices (postUpload cfg req db disk).2.log = List.range (pre.length + 1)
      ∧ filePath cfg req.username file ∈ (postUpload cfg req db disk).2.disk := by
  have hbad : accepted cfg req.username file = false := by simp [accepted, hs, ht, hth]
  rw [postUpload_reaches cfg req db disk pre (file :: post) herr huser hfiles hpre,
    uploadLoop_cons_rejected cfg req.username _ file post _ hbad,
    uploadLoop_single_thumbFailed cfg req.username _ file _ msg hs ht hth]
  refine ⟨rfl, ?_, rfl, ?_, ?_⟩
  · show entriesOf pre.length (logFrom cfg req.username 0 (nextRowid db) pre ++ _) = _
    rw [entriesOf_append,
      entriesOf_logFrom_of_ge cfg req.username pre.length pre 0 (nextRowid db) (by omega)]
    simp [entriesOf]
  · show scannedIndices (logFrom cfg req.username 0 (nextRowid db) pre ++ _) = _
    rw [scannedIndices_append, scannedIndices_logFrom, List.range_succ, List.range_eq_range']
    simp [scannedIndices]
  · simp [hfiles]

/-- In the batch `[photo, truncated, clip]` the error `sharp` raises on the second file is answered with status 500 and only the first file is recorded. -/
theorem thumbnail_failure_aborts_batch_witness :
    (postUpload demoCfg (batch "alice" [photo, truncated, clip]) [] []).1
        = Response.send 500 ("Upload failed: " ++ "Input file contains unsupported image format")
      ∧ (postUpload demoCfg (batch "alice" [photo, truncated, clip]) [] []).2.db
          = [] ++ rowsFrom demoCfg "alice" (nextRowid []) [photo] :=
  have h := thumbnail_failure_aborts_batch demoCfg (batch "alice" [photo, truncated, clip])
    [] [] [photo] [clip] truncated "Input file contains unsupported image format" rfl
    (by decide) rfl (by decide) rfl (by decide) (by rfl)
  ⟨h.1, h.2.2.1⟩

/-- C7 (as stated, refuted): uploading the same `photo.jpg` as `alice` twice is
neither rejected nor an overwrite of the row: both requests succeed and the
table ends with two rows for (`alice`, `photo.jpg`). -/
theorem same_relpath_recorded_twice :
    (postUpload demoCfg (batch "alice" [photo]) [] []).1 = Response.success
      ∧ (postUpload demoCfg (batch "alice" [photo])
          (postUpload demoCfg (batch "alice" [photo]) [] []).2.db
          (postUpload demoCfg (batch "alice" [photo]) [] []).2.disk).1 = Response.success
      ∧ ((postUpload demoCfg (batch "alice" [photo])
          (postUpload demoCfg (batch "alice" [photo]) [] []).2.db
          (postUpload demoCfg (batch "alice" [photo]) [] []).2.disk).2.db.map
            fun r => (r.id, r.user, r.relpath))
          = [(1, "alice", "photo.jpg"), (2, "alice", "photo.jpg")] := by
  decide

/-- C7 (amended): the `files` table is append-only under `/upload` and keyed by
`id` alone.  In every table reachable through `/upload` the ids are strictly
increasing, hence pairwise distinct; a request keeps every earlier row
(nothing is replaced, whatever the relative path) and appends its new rows
with larger ids; and a query by user after the request contains each row of
that user, the new ones included, exactly once. -/
theorem files_table_append_only (cfg : Config) (db : List Row) (hreach : Reachable cfg db)
    (req : UploadRequest) (disk : List String) :
    (db.map Row.id).Pairwise (· < ·)
      ∧ db <+: (postUpload cfg req db disk).2.db
      ∧ ((postUpload cfg req db disk).2.db.map Row.id).Pairwise (· < ·)
      ∧ ∀ r ∈ (postUpload cfg req db disk).2.db,
          ((postUpload cfg req db disk).2.db.filter (fun x => x.user = r.user)).count r = 1 := by
  have hdb := reachable_ids_increasing cfg db hreach
  have hout := reachable_ids_increasing cfg _ (Reachable.upload req db disk hreach)
  obtain ⟨files, hfiles⟩ := postUpload_db cfg req db disk
  refine ⟨hdb, ?_, hout, ?_⟩
  · rw [hfiles]
    exact List.prefix_append _ _
  · intro r hr
    have hnodup : ((postUpload cfg req db disk).2.db).Nodup := by
      have h1 : ((postUpload cfg req db disk).2.db.map Row.id).Nodup :=
        hout.imp (fun h => Nat.ne_of_lt h)
      exact List.Nodup.of_map _ h1
    have hmem : r ∈ (postUpload cfg req db disk).2.db.filter (fun x => x.user = r.user) := by
      simp [hr]
    exact List.count_eq_one_of_mem (hnodup.filter _) hmem

/-- From the empty table, the batch `[photo, clip]` appends rows with increasing ids. -/
theorem files_table_append_only_witness :
    Reachable demoCfg []
      ∧ [] <+: (postUpload demoCfg (batch "alice" [photo, clip]) [] []).2.db
      ∧ ((postUpload demoCfg (batch "alice" [photo, clip]) [] []).2.db.map Row.id).Pairwise
          (· < ·) :=
  have h := files_table_append_only demoCfg [] Reachable.empty (batch "alice" [photo, clip]) []
  ⟨Reachable.empty, h.2.1, h.2.2.1⟩

/-- C8 (as stated, refuted): socket.io puts every socket in the room named by
its own id.  The socket `yUElCtIqT3-1mzZ3AAAB` connected and called `joinUser`
once, for `bob`; an upload whose username is that id, which is not `bob`, is
delivered to it. -/
theorem upload_named_by_socket_id_is_delivered :
    "yUElCtIqT3-1mzZ3AAAB" ≠ "bob"
      ∧ ("yUElCtIqT3-1mzZ3AAAB",
          eventOf demoCfg "yUElCtIqT3-1mzZ3AAAB" photo
            (thumbRelOf demoCfg "yUElCtIqT3-1mzZ3AAAB" photo))
          ∈ delivered
              (hubAfter [] [HubEvent.connect "yUElCtIqT3-1mzZ3AAAB",
                HubEvent.joinUser "yUElCtIqT3-1mzZ3AAAB" "bob"])
              (postUpload demoCfg (batch "yUElCtIqT3-1mzZ3AAAB" [photo]) [] []).2.log := by
  decide

/-- C8 (amended): take any history of sockets connecting, calling `joinUser`
and disconnecting, and any `/upload` request, for username `A` say.  A socket
all of whose `joinUser` calls named a username `B` other than `A`, and whose
own socket id is not `A`, is delivered none of the `fileAdded` events of the
request; every socket that called `joinUser` with `A` while connected and has
not disconnected since is delivered each of them; and no socket is listed
twice among the recipients of an event. -/
theorem fileAdded_reaches_exactly_joined_connections (cfg : Config) (req : UploadRequest)
    (db : List Row) (disk : List String) (events : List HubEvent) (conn B : String)
    (hAB : req.username ≠ B) (hid : req.username ≠ conn)
    (hconn : ∀ room, HubEvent.joinUser conn room ∈ events → room = B) :
    (∀ payload, (conn, payload)
        ∉ delivered (hubAfter db events) (postUpload cfg req db disk).2.log)
      ∧ (∀ other before after,
          events = before ++ HubEvent.joinUser other req.username :: after →
          other ∈ (hubAfter db before).map Socket.id →
          HubEvent.disconnect other ∉ after →
          ∀ e ∈ emitted (postUpload cfg req db disk).2.log,
            (other, e.2) ∈ delivered (hubAfter db events) (postUpload cfg req db disk).2.log)
      ∧ (recipients (hubAfter db events) req.username).Nodup := by
  refine ⟨?_, ?_, recipients_nodup db events req.username⟩
  · intro payload hmem
    obtain ⟨room, he, hc⟩ := (mem_delivered _ _ _ _).mp hmem
    have h1 : room = req.username := emitted_postUpload_room cfg req db disk _ he
    obtain ⟨s, hs, hsid, hr⟩ := (mem_recipients _ _ _).mp hc
    have h2 := rooms_of_joins db conn B events hconn [] (by simp) s hs hsid room hr
    rcases h2 with h2 | h2
    · exact hid (h1.symm.trans h2)
    · exact hAB (h1.symm.trans h2)
  · intro other before after hev hconnected hstay e he
    refine (mem_delivered _ _ _ _).mpr ⟨e.1, he, ?_⟩
    rw [emitted_postUpload_room cfg req db disk e he]
    apply (mem_recipients _ _ _).mpr
    have hjoined := joinUser_joins (hubAfter db before) db other req.username hconnected
    have := stays_in_room db other req.username after hstay _ hjoined
    rw [hev]
    unfold hubAfter
    rw [List.foldl_append, List.foldl_cons]
    exact this

/-- Socket `s7` joined `bob` twice and socket `s8` joined `alice`: an upload of
`alice` reaches `s8` and not `s7`. -/
theorem fileAdded_reaches_exactly_joined_connections_witness :
    (∀ payload, ("s7", payload)
        ∉ delivered
            (hubAfter [] [HubEvent.connect "s7", HubEvent.joinUser "s7" "bob",
              HubEvent.connect "s8", HubEvent.joinUser "s8" "alice",
              HubEvent.joinUser "s7" "bob"])
            (postUpload demoCfg (batch "alice" [photo]) [] []).2.log)
      ∧ ("s8", eventOf demoCfg "alice" photo (thumbRelOf demoCfg "alice" photo))
          ∈ delivered
              (hubAfter [] [HubEvent.connect "s7", HubEvent.joinUser "s7" "bob",
                HubEvent.connect "s8", HubEvent.joinUser "s8" "alice",
                HubEvent.joinUser "s7" "bob"])
              (postUpload demoCfg (batch "alice" [photo]) [] []).2.log :=
  have h := fileAdded_reaches_exactly_joined_connections demoCfg (batch "alice" [photo]) [] []
    [HubEvent.connect "s7", HubEvent.joinUser "s7" "bob", HubEvent.connect "s8",
      HubEvent.joinUser "s8" "alice", HubEvent.joinUser "s7" "bob"] "s7" "bob"
    (by decide) (by decide)
    (by intro room hroom; simp at hroom; exact hroom)
  ⟨h.1, h.2.1 "s8"
    [HubEvent.connect "s7", HubEvent.joinUser "s7" "bob", HubEvent.connect "s8"]
    [HubEvent.joinUser "s7" "bob"] rfl (by decide) (by decide)
    ("alice", eventOf demoCfg "alice" photo (thumbRelOf demoCfg "alice" photo)) (by decide)⟩

/-- C9 (as stated, refuted): after `alice` uploads `photo.jpg` and a PNG
declared as `image/jpeg`, searching with `q = "_"` returns both rows although
neither file name contains an underscore (`_` is a `LIKE` wildcard), searching
with `q = "PHOTO"` returns `photo.jpg` (`LIKE` ignores ASCII case), and the
type filter reads the declared type: `type = "image/png"` misses the file
sniffed as `image/png`, `type = "image/jpeg"` returns it. -/
theorem search_is_like_on_declared_type :
    jsIncludes "photo.jpg" "_" = false
      ∧ jsIncludes "scan.jpg" "_" = false
      ∧ getSearch (postUpload demoCfg (batch "alice" [photo, relabelled]) [] []).2.db
          "alice" "_" ""
          = SearchResponse.rows [rowOf demoCfg "alice" photo 1, rowOf demoCfg "alice" relabelled 2]
      ∧ jsIncludes "photo.jpg" "PHOTO" = false
      ∧ getSearch (postUpload demoCfg (batch "alice" [photo, relabelled]) [] []).2.db
          "alice" "PHOTO" ""
          = SearchResponse.rows [rowOf demoCfg "alice" photo 1]
      ∧ relabelled.sniffed = some "image/png"
      ∧ getSearch (postUpload demoCfg (batch "alice" [relabelled]) [] []).2.db
          "alice" "" "image/png" = SearchResponse.rows []
      ∧ getSearch (postUpload demoCfg (batch "alice" [relabelled]) [] []).2.db
          "alice" "" "image/jpeg" = SearchResponse.rows [rowOf demoCfg "alice" relabelled 1] := by
  decide

/-- C9 (amended): take a non-empty username and a `q` and a `type` in which
none of `%`, `_` and NUL occurs and whose patterns `%q%` and `type%` stay
within SQLite's 50000 bytes.  On a table reachable through `/upload`,
`GET /search` answers with exactly the rows whose user equals the username,
whose file name, read up to its first NUL, contains `q` up to the case of
ASCII letters when `q` is non-empty, and whose stored MIME type, read up to
its first NUL, starts with `type` up to the case of ASCII letters when `type`
is non-empty.  The rows come in table order, which is increasing id order;
the answer is the empty list when the username has no rows; and the stored
file name and MIME type of every row are the ones the client sent with the
file, not what was sniffed. -/
theorem search_returns_matching_rows (cfg : Config) (db : List Row)
    (hreach : Reachable cfg db) (username q type : String) (huser : username ≠ "")
    (hq : literalPattern q) (htype : literalPattern type)
    (hqlen : ("%" ++ q ++ "%").utf8ByteSize ≤ maxLikePatternLength)
    (htlen : (type ++ "%").utf8ByteSize ≤ maxLikePatternLength) :
    getSearch db username q type
        = SearchResponse.rows (db.filter fun r =>
            decide (r.user = username)
              && (decide (q = "") || containsNoCase (upToNul r.filename) q)
              && (decide (type = "") || startsWithNoCase (upToNul r.mimetype) type))
      ∧ ((db.filter fun r =>
            decide (r.user = username)
              && (decide (q = "") || containsNoCase (upToNul r.filename) q)
              && (decide (type = "") || startsWithNoCase (upToNul r.mimetype) type)).map
            Row.id).Pairwise (· < ·)
      ∧ ((∀ r ∈ db, r.user ≠ username) →
          getSearch db username q type = SearchResponse.rows [])
      ∧ ∀ r ∈ db, ∃ file, accepted cfg r.user file = true
          ∧ r.filename = file.originalname ∧ r.mimetype = file.mimetype := by
  refine ⟨?_, ?_, ?_, reachable_rows cfg db hreach⟩
  · simp only [getSearch, huser, if_false]
    rw [selectRows_ok _ _ db
      (fun r _ => searchWhere_literal username q type r hq htype hqlen htlen)]
  · exact ((reachable_ids_increasing cfg db hreach).sublist
      ((List.filter_sublist _).map Row.id))
  · intro hnone
    simp only [getSearch, huser, if_false]
    rw [selectRows_ok _ (fun _ => false) db
      (fun r hr => searchWhere_other_user username q type r (hnone r hr))]
    simp

/-- Searching the table left by the batch `[photo, clip]` for `q = CLIP` and
`type = video`. -/
theorem search_returns_matching_rows_witness :
    Reachable demoCfg (postUpload demoCfg (batch "alice" [photo, clip]) [] []).2.db
      ∧ literalPattern "CLIP"
      ∧ ("%" ++ "CLIP" ++ "%").utf8ByteSize ≤ maxLikePatternLength
      ∧ getSearch (postUpload demoCfg (batch "alice" [photo, clip]) [] []).2.db
          "alice" "CLIP" "video"
          = SearchResponse.rows
              ((postUpload demoCfg (batch "alice" [photo, clip]) [] []).2.db.filter fun r =>
                decide (r.user = "alice")
                  && (decide ("CLIP" = "") || containsNoCase (upToNul r.filename) "CLIP")
                  && (decide ("video" = "")
                      || startsWithNoCase (upToNul r.mimetype) "video")) :=
  ⟨Reachable.upload _ _ _ Reachable.empty, by unfold literalPattern; decide, by decide,
    (search_returns_matching_rows demoCfg _
      (Reachable.upload (batch "alice" [photo, clip]) [] [] Reachable.empty)
      "alice" "CLIP" "video" (by decide) (by unfold literalPattern; decide)
      (by unfold literalPattern; decide) (by decide) (by decide)).1⟩

/-- C5 (as stated, refuted): a PDF sent as `../notes.pdf` by `alice` is
accepted, stored at `/srv/app/uploads/notes.pdf`, outside `uploads/alice`, and
recorded with the relative path `../notes.pdf`, whose first segment is `..`;
and a name that starts with a backslash is recorded with a relative path that
starts with a slash. -/
theorem traversal_name_stored_and_recorded :
    (postUpload demoCfg (batch "alice" [climbing]) [] []).1 = Response.success
      ∧ filePath demoCfg "alice" climbing = "/srv/app/uploads/notes.pdf"
      ∧ userDir demoCfg "alice" = "/srv/app/uploads/alice"
      ∧ (postUpload demoCfg (batch "alice" [climbing]) [] []).2.db.map Row.relpath
          = ["../notes.pdf"]
      ∧ ['.', '.'] ∈ splitChars '/' "../notes.pdf".data
      ∧ (postUpload demoCfg (batch "alice" [backslashed]) [] []).2.db.map Row.relpath
          = ["/etc/notes.pdf"] := by
  decide

/-- C5 (amended): with `__dirname` absolute, every row the handler inserts is
the row of a file of the request, its `relpath` contains no backslash, and
when the file's client-sent name contains no backslash and none of its
slash-separated segments is `..`, the `relpath` is the name's segments other
than the empty ones and `.`, joined by slashes: it has no `..` segment and
does not start with a slash.  No name is checked or rejected for where it
puts the file. -/
theorem recorded_relpath (cfg : Config) (req : UploadRequest) (db : List Row)
    (disk : List String) (r : List Char) (k : Nat) (row : Row)
    (habs : cfg.dirname.data = '/' :: r)
    (hrow : (k, Action.insert row) ∈ (postUpload cfg req db disk).2.log) :
    '\\' ∉ row.relpath.data
      ∧ ∃ file ∈ req.files, row.filename = file.originalname
          ∧ ('\\' ∉ file.originalname.data →
              ['.', '.'] ∉ splitChars '/' file.originalname.data →
              row.relpath.data = joinChars '/' (namedSegs file.originalname.data)
                ∧ ['.', '.'] ∉ splitChars '/' row.relpath.data
                ∧ row.relpath.data.head? ≠ some '/') := by
  obtain ⟨file, hfile, id, rfl⟩ := insert_postUpload cfg req db disk k row hrow
  refine ⟨replaceBackslashChars_no_backslash _, file, hfile, rfl, ?_⟩
  intro hbs hdd
  obtain ⟨h1, h2, h3⟩ := joinChars_namedSegs file.originalname.data hbs hdd
  have hrel : (rowOf cfg req.username file id).relpath.data
      = joinChars '/' (namedSegs file.originalname.data) := by
    show replaceBackslashChars
      (pathRelative (pathJoin [UPLOAD_ROOT cfg, req.username])
        (filePath cfg req.username file)).data = _
    rw [pathRelative_filePath cfg req.username file r habs hdd,
      replaceBackslashChars_of_not_mem _ h1]
  rw [hrel]
  exact ⟨rfl, h2, h3⟩

/-- The row the batch `[photo, clip]` inserts for the MP4, on a server started
from `/srv/app`. -/
theorem recorded_relpath_witness :
    demoCfg.dirname.data = '/' :: "srv/app".data
      ∧ (1, Action.insert (rowOf demoCfg "alice" clip 2))
          ∈ (postUpload demoCfg (batch "alice" [photo, clip]) [] []).2.log
      ∧ '\\' ∉ (rowOf demoCfg "alice" clip 2).relpath.data
      ∧ ∃ file ∈ (batch "alice" [photo, clip]).files,
          (rowOf demoCfg "alice" clip 2).filename = file.originalname
            ∧ ('\\' ∉ file.originalname.data →
                ['.', '.'] ∉ splitChars '/' file.originalname.data →
                (rowOf demoCfg "alice" clip 2).relpath.data
                    = joinChars '/' (namedSegs file.originalname.data)
                  ∧ ['.', '.'] ∉ splitChars '/' (rowOf demoCfg "alice" clip 2).relpath.data
                  ∧ (rowOf demoCfg "alice" clip 2).relpath.data.head? ≠ some '/') :=
  ⟨rfl, by decide,
    recorded_relpath demoCfg (batch "alice" [photo, clip]) [] [] "srv/app".data 1
      (rowOf demoCfg "alice" clip 2) rfl (by decide)⟩

end MobileStorage
